import Mathlib

/-!
Verification development for the `mother-terminal` knowledge-base core.

The Rust program is shallowly embedded here:

* `src/db/mod.rs` — the SQLite-backed `Database` becomes a record of lists
  (one list per table).  SQL queries are translated row-for-row:
  `ORDER BY` becomes a stable sort (`sortBy`, modelling Rust's stable
  `sort`/`sort_by` and SQLite's ordering), `LIMIT n` becomes `List.take n`,
  aggregate queries (`COUNT`, `AVG`) become `List.length`/sum over a filter.
  `f64` values (confidence, trust) are modelled as rationals; the
  floating-point tolerance `f64::EPSILON` is the rational `2 ^ (-52)`.
  Row ids (`INTEGER PRIMARY KEY AUTOINCREMENT`) are `Nat`, assigned as
  `max existing id + 1` (no row is ever deleted, so this matches SQLite).
  Timestamps come from the wall clock and play no role in any claim; they
  are modelled by the constant string `now`.

* `src/modules/dialog.rs` — `Dialog` with its `handle_command`,
  `confirm_pending`, `reject_pending`, `suggest_tags`, `handle_input`.
  `handle_command` never writes to the database (it only reads and sets
  `pending`), which the embedding makes explicit by computing a `CmdOut`
  (messages plus an optional assignment to `pending`) that is then applied
  to the state.

* `src/modules/graph.rs` — `compute_clusters` / `top_nodes`.  Rust iterates
  over `HashMap` keys and `HashSet` elements in an unspecified,
  seed-dependent order; the embedding takes that order as an explicit
  parameter (`ord` for the key enumeration, `nbr` for the per-node
  neighbour enumeration), constrained only to enumerate the right sets
  without duplicates.
-/

namespace Mother

/-! ## Stable insertion sort

Models Rust's stable `sort`/`sort_by` (and SQLite `ORDER BY`): a stable
sort for a total boolean preorder `le`.  `insertS le x l` inserts `x`
before the first element of `l` that is not strictly before `x`, which is
exactly the stable placement of an element that originally occurred before
every element of `l`. -/

def insertS (le : α → α → Bool) (x : α) : List α → List α
  | [] => [x]
  | y :: ys => if le y x && ! le x y then y :: insertS le x ys else x :: y :: ys

def sortBy (le : α → α → Bool) (l : List α) : List α :=
  l.foldr (insertS le) []

theorem insertS_perm (le : α → α → Bool) (x : α) :
    ∀ l : List α, List.Perm (insertS le x l) (x :: l) := by
  intro l
  induction l with
  | nil => simp [insertS]
  | cons y ys ih =>
      by_cases h : (le y x && ! le x y) = true
      · simp only [insertS, h, if_pos]
        exact List.Perm.trans (List.Perm.cons y ih) (List.Perm.swap x y ys)
      · simp [insertS, h]

theorem sortBy_perm (le : α → α → Bool) (l : List α) : List.Perm (sortBy le l) l := by
  induction l with
  | nil => simp [sortBy]
  | cons x xs ih =>
      exact List.Perm.trans (insertS_perm le x (sortBy le xs)) (List.Perm.cons x ih)

theorem mem_sortBy {le : α → α → Bool} {l : List α} {a : α} :
    a ∈ sortBy le l ↔ a ∈ l :=
  (sortBy_perm le l).mem_iff

theorem length_sortBy (le : α → α → Bool) (l : List α) :
    (sortBy le l).length = l.length :=
  (sortBy_perm le l).length_eq

theorem nodup_sortBy {le : α → α → Bool} {l : List α} (h : l.Nodup) :
    (sortBy le l).Nodup :=
  ((sortBy_perm le l).nodup_iff).mpr h

theorem pairwise_insertS {le : α → α → Bool}
    (total : ∀ a b, (le a b || le b a) = true)
    (htr : ∀ a b c, le a b = true → le b c = true → le a c = true) (x : α) :
    ∀ {l : List α}, l.Pairwise (fun a b => le a b = true) →
      (insertS le x l).Pairwise (fun a b => le a b = true) := by
  intro l
  induction l with
  | nil => intro _; simp [insertS]
  | cons y ys ih =>
      intro h
      rw [List.pairwise_cons] at h
      obtain ⟨h1, h2⟩ := h
      by_cases hc : (le y x && ! le x y) = true
      · simp only [insertS, hc, if_true]
        rw [List.pairwise_cons]
        rw [Bool.and_eq_true, Bool.not_eq_true'] at hc
        refine ⟨?_, ih h2⟩
        intro b hb
        have hb' : b ∈ x :: ys := (insertS_perm le x ys).mem_iff.mp hb
        rcases List.mem_cons.mp hb' with rfl | hbys
        · exact hc.1
        · exact h1 b hbys
      · have hxy : le x y = true := by
          cases hxy : le x y with
          | true => rfl
          | false =>
              cases hyx : le y x with
              | true => exact absurd (by simp [hyx, hxy]) hc
              | false => have ht := total x y; simp [hxy, hyx] at ht
        have hcond : (le y x && ! le x y) = false := by simp [hxy]
        simp only [insertS, hcond, Bool.false_eq_true, if_false]
        rw [List.pairwise_cons]
        constructor
        · intro b hb
          rcases List.mem_cons.mp hb with rfl | hbys
          · exact hxy
          · exact htr x y b hxy (h1 b hbys)
        · rw [List.pairwise_cons]; exact ⟨h1, h2⟩

theorem pairwise_sortBy {le : α → α → Bool}
    (total : ∀ a b, (le a b || le b a) = true)
    (htr : ∀ a b c, le a b = true → le b c = true → le a c = true)
    (l : List α) :
    (sortBy le l).Pairwise (fun a b => le a b = true) := by
  induction l with
  | nil => simp [sortBy]
  | cons x xs ih => exact pairwise_insertS total htr x ih

/-- Inserting an element that is strictly before the whole list just
prepends it. -/
theorem insertS_of_forall_lt {le : α → α → Bool} {x : α} {l : List α}
    (h : ∀ y ∈ l, le x y = true ∧ le y x = false) :
    insertS le x l = x :: l := by
  cases l with
  | nil => rfl
  | cons y ys =>
      have hy := h y (List.mem_cons_self y ys)
      simp [insertS, hy.2]

/-- A list that is already strictly sorted is left unchanged by the sort. -/
theorem sortBy_eq_self_of_pairwise {le : α → α → Bool} {l : List α}
    (h : l.Pairwise (fun a b => le a b = true ∧ le b a = false)) :
    sortBy le l = l := by
  induction l with
  | nil => rfl
  | cons x xs ih =>
      rw [List.pairwise_cons] at h
      have hstep : sortBy le (x :: xs) = insertS le x (sortBy le xs) := rfl
      rw [hstep, ih h.2]
      exact insertS_of_forall_lt h.1

/-- Sorting commutes with mapping when the comparator only looks at parts
of the element that the map preserves. -/
theorem insertS_map {le' : β → β → Bool} {le : α → α → Bool} {f : α → β}
    (hf : ∀ a b, le' (f a) (f b) = le a b) (x : α) :
    ∀ l : List α, insertS le' (f x) (l.map f) = (insertS le x l).map f := by
  intro l
  induction l with
  | nil => rfl
  | cons y ys ih =>
      simp only [List.map_cons, insertS, hf]
      by_cases h : (le y x && ! le x y) = true
      · simp [h, ih]
      · simp [h]

theorem sortBy_map {le' : β → β → Bool} {le : α → α → Bool} {f : α → β}
    (hf : ∀ a b, le' (f a) (f b) = le a b) (l : List α) :
    sortBy le' (l.map f) = (sortBy le l).map f := by
  induction l with
  | nil => rfl
  | cons x xs ih =>
      simp only [List.map_cons]
      show insertS le' (f x) (sortBy le' (xs.map f)) = _
      rw [ih, insertS_map hf]
      rfl

/-- `insertS` only inspects the strict-before test `le y x && ! le x y`;
two comparators that agree on it produce the same insertion. -/
theorem insertS_eq_of_strict_agree {le₁ le₂ : α → α → Bool} {x : α} :
    ∀ {l : List α},
      (∀ y ∈ l, (le₁ y x && ! le₁ x y) = (le₂ y x && ! le₂ x y)) →
      insertS le₁ x l = insertS le₂ x l := by
  intro l
  induction l with
  | nil => intro _; rfl
  | cons y ys ih =>
      intro h
      have hy := h y (List.mem_cons_self y ys)
      by_cases hc : (le₁ y x && ! le₁ x y) = true
      · have hc₂ : (le₂ y x && ! le₂ x y) = true := hy ▸ hc
        simp only [insertS, hc, hc₂, if_true]
        rw [ih (fun z hz => h z (List.mem_cons_of_mem y hz))]
      · have hc₂ : ¬ (le₂ y x && ! le₂ x y) = true := fun hh => hc (hy ▸ hh)
        simp [insertS, hc, hc₂]

/-- Two comparators whose strict-before tests agree on all pairs drawn
from a list sort it identically (stability makes the sort depend only on
the strict part of the order). -/
theorem sortBy_eq_of_strict_agree {le₁ le₂ : α → α → Bool} :
    ∀ {l : List α},
      (∀ x ∈ l, ∀ y ∈ l, (le₁ y x && ! le₁ x y) = (le₂ y x && ! le₂ x y)) →
      sortBy le₁ l = sortBy le₂ l := by
  intro l
  induction l with
  | nil => intro _; rfl
  | cons x xs ih =>
      intro h
      show insertS le₁ x (sortBy le₁ xs) = insertS le₂ x (sortBy le₂ xs)
      rw [ih (fun a ha b hb =>
        h a (List.mem_cons_of_mem x ha) b (List.mem_cons_of_mem x hb))]
      exact insertS_eq_of_strict_agree (fun y hy =>
        h x (List.mem_cons_self x xs) y
          (List.mem_cons_of_mem x (mem_sortBy.mp hy)))

/-! ## String helpers

`hasSub hay needle` models Rust `str::contains` on the underlying
character lists (UTF-8 is self-synchronising, so byte-level substring
search and character-level substring search agree).  `breakOn` models
`str::find(pat)` splitting at the first occurrence of a pattern. -/

def hasSub : List Char → List Char → Bool
  | _, [] => true
  | [], _ :: _ => false
  | h :: t, n :: m => List.isPrefixOf (n :: m) (h :: t) || hasSub t (n :: m)

theorem length_le_of_hasSub :
    ∀ {hay needle : List Char}, hasSub hay needle = true → needle.length ≤ hay.length := by
  intro hay
  induction hay with
  | nil =>
      intro needle h
      cases needle with
      | nil => simp
      | cons n m => simp [hasSub] at h
  | cons c t ih =>
      intro needle h
      cases needle with
      | nil => simp
      | cons n m =>
          rw [hasSub, Bool.or_eq_true] at h
          rcases h with h | h
          · exact (List.IsPrefix.length_le (List.isPrefixOf_iff_prefix.mp h))
          · exact Nat.le_trans (ih h) (by simp)

/-- Splits `s` at the first occurrence of the (nonempty) pattern `sep`,
returning the parts before and after it. -/
def breakOn (sep : List Char) : List Char → Option (List Char × List Char)
  | [] => if sep.isEmpty then some ([], []) else none
  | c :: cs =>
      if List.isPrefixOf sep (c :: cs) then some ([], (c :: cs).drop sep.length)
      else match breakOn sep cs with
        | some (pre, post) => some (c :: pre, post)
        | none => none

/-- A single-quote character, used to assemble message strings that
contain quotes in the Rust source. -/
def sq : String := String.mk [Char.ofNat 39]

/-! ## Data model (`src/db/mod.rs`)

One structure per Rust row struct.  `f64` columns are rationals, ids are
`Nat`.  The Rust field `from`/`to` of `Relation` are Lean keywords /
near-keywords, so they are rendered `from_` / `to_`. -/

/-- Wall-clock timestamp written by `Database::now()`; it never influences
any verified behaviour, so it is modelled as a constant. -/
def now : String := "timestamp"

structure Concept where
  id : Nat
  name : String
  definition : String
  confidence : ℚ
  created_at : String
deriving DecidableEq

structure Relation where
  id : Nat
  from_ : String
  relation_type : String
  to_ : String
  created_at : String
deriving DecidableEq

structure Evidence where
  id : Nat
  concept_name : String
  content : String
  source : Option String
  domain : Option String
  trust : ℚ
  created_at : String
deriving DecidableEq

structure EpisodeTag where
  episode_id : Nat
  concept_name : String
deriving DecidableEq

structure Skill where
  id : Nat
  name : String
  description : String
  created_at : String
deriving DecidableEq

structure SkillStep where
  id : Nat
  skill_id : Nat
  step_no : Nat
  text : String
  evidence_id : Option Int
  episode_id : Option Int
  created_at : String
deriving DecidableEq

structure ConfidenceUpdate where
  concept : String
  old : ℚ
  new : ℚ
deriving DecidableEq

structure Episode where
  id : Nat
  captured_at : String
  outcome : String
  summary : String
deriving DecidableEq

/-- A row of the append-only `concept_confidence_events` table. -/
structure ConfidenceEvent where
  concept_name : String
  event_type : String
  created_at : String
deriving DecidableEq

/-- The logical contents of the SQLite database: one list per table, each
kept in insertion (rowid) order. -/
structure Database where
  concepts : List Concept
  concept_relations : List Relation
  episodes : List Episode
  episode_tags : List EpisodeTag
  evidence : List Evidence
  concept_confidence_events : List ConfidenceEvent
  skills : List Skill
  skill_steps : List SkillStep
deriving DecidableEq

/-- The next `AUTOINCREMENT` rowid: one past the largest id ever used
(no table of this program ever deletes rows). -/
def nextId (ids : List Nat) : Nat := ids.foldr max 0 + 1

/-! Comparators for the `ORDER BY` clauses. -/

def idDesc {α : Type} (idOf : α → Nat) (a b : α) : Bool := decide (idOf b ≤ idOf a)

def strAsc (a b : String) : Bool := decide (a ≤ b)

namespace Database

/-- `INSERT .. ON CONFLICT(name) DO UPDATE SET definition, confidence`:
updates the row in place when the name exists, else appends a fresh row. -/
def upsert_concept (db : Database) (name definition : String) (confidence : ℚ) :
    Database :=
  if db.concepts.any (fun c => c.name == name) then
    { db with concepts := db.concepts.map fun c =>
        if c.name == name then
          { c with definition := definition, confidence := confidence }
        else c }
  else
    { db with concepts := db.concepts ++
        [{ id := nextId (db.concepts.map (·.id)), name := name,
           definition := definition, confidence := confidence,
           created_at := now }] }

def get_concept (db : Database) (name : String) : Option Concept :=
  db.concepts.find? (fun c => c.name == name)

/-- `SELECT .. FROM concepts ORDER BY id DESC LIMIT ?1`. -/
def list_concepts (db : Database) (limit : Nat) : List Concept :=
  (sortBy (idDesc Concept.id) db.concepts).take limit

/-- `SELECT name FROM concepts ORDER BY name ASC LIMIT ?1`. -/
def list_concept_names (db : Database) (limit : Nat) : List String :=
  (sortBy strAsc (db.concepts.map (·.name))).take limit

def record_confidence_event (db : Database) (concept event_type : String) :
    Database :=
  { db with concept_confidence_events := db.concept_confidence_events ++
      [{ concept_name := concept, event_type := event_type, created_at := now }] }

/-- One cell of `concept_event_counts` (`SELECT .. COUNT(*) .. GROUP BY
concept_name, event_type`, with absent groups read back as 0). -/
def eventCount (db : Database) (concept event_type : String) : Nat :=
  (db.concept_confidence_events.filter
    (fun e => e.concept_name == concept && e.event_type == event_type)).length

/-- `SELECT concept_name, AVG(trust) FROM evidence GROUP BY concept_name`,
with a missing group defaulting to `0.5` (`unwrap_or(0.5)`). -/
def avgTrustFor (db : Database) (concept : String) : ℚ :=
  let l := db.evidence.filter (fun e => e.concept_name == concept)
  if l.isEmpty then 1/2 else (l.map (·.trust)).sum / l.length

/-- The two saturating `if`s at the end of the update rule. -/
def clamp01 (x : ℚ) : ℚ := if 1 < x then 1 else if x < 0 then 0 else x

/-- The deterministic confidence evolution rule of
`calculate_confidence_updates`, for one concept name. -/
def newConfidence (db : Database) (concept : String) : ℚ :=
  clamp01 (3/10
    + (15/100) * (db.eventCount concept ("confirm_claim") : ℚ)
    - (12/100) * (db.eventCount concept ("reject_claim") : ℚ)
    + (8/100) * (db.eventCount concept ("episode_ok") : ℚ)
    - (8/100) * (db.eventCount concept ("episode_fail") : ℚ)
    + (25/100) * (db.avgTrustFor concept - 1/2))

/-- `f64::EPSILON`. -/
def tolEps : ℚ := 1 / 2 ^ 52

def calculate_confidence_updates (db : Database) : List ConfidenceUpdate :=
  (db.list_concepts 10000).filterMap fun c =>
    let n := db.newConfidence c.name
    if tolEps < |n - c.confidence| then
      some { concept := c.name, old := c.confidence, new := n }
    else none

/-- `UPDATE concepts SET confidence = ?1 WHERE name = ?2` for one update. -/
def applyOne (u : ConfidenceUpdate) (cs : List Concept) : List Concept :=
  cs.map fun c => if c.name == u.concept then { c with confidence := u.new } else c

def apply_confidence_updates (db : Database) (us : List ConfidenceUpdate) :
    Database :=
  { db with concepts := us.foldl (fun cs u => applyOne u cs) db.concepts }

/-- `SELECT event_type, created_at .. WHERE concept_name = ?1 ORDER BY id
DESC LIMIT 50` over the append-only event table. -/
def concept_confidence_history (db : Database) (concept : String) :
    List (String × String) :=
  (((db.concept_confidence_events.filter
      (fun e => e.concept_name == concept)).reverse).take 50).map
    (fun e => (e.event_type, e.created_at))

/-- `INSERT .. ON CONFLICT(from,type,to) DO NOTHING`. -/
def upsert_relation (db : Database) (from_ relation_type to_ : String) : Database :=
  if db.concept_relations.any
      (fun r => r.from_ == from_ && r.relation_type == relation_type && r.to_ == to_)
  then db
  else
    { db with concept_relations := db.concept_relations ++
        [{ id := nextId (db.concept_relations.map (·.id)), from_ := from_,
           relation_type := relation_type, to_ := to_, created_at := now }] }

def list_relations_for (db : Database) (concept : String) (limit : Nat) :
    List Relation :=
  (sortBy (idDesc Relation.id)
    (db.concept_relations.filter
      (fun r => r.from_ == concept || r.to_ == concept))).take limit

def list_all_relations (db : Database) (limit : Nat) : List Relation :=
  (sortBy (idDesc Relation.id) db.concept_relations).take limit

/-- Returns the updated database and `last_insert_rowid`. -/
def add_episode (db : Database) (outcome summary : String) : Database × Nat :=
  let id := nextId (db.episodes.map (·.id))
  ({ db with episodes := db.episodes ++
      [{ id := id, captured_at := now, outcome := outcome, summary := summary }] },
   id)

def list_episodes (db : Database) (limit : Nat) : List Episode :=
  (sortBy (idDesc Episode.id) db.episodes).take limit

def get_episode (db : Database) (id : Nat) : Option Episode :=
  db.episodes.find? (fun e => e.id == id)

/-- `INSERT OR IGNORE INTO episode_tags`. -/
def add_episode_tag (db : Database) (episode_id : Nat) (concept_name : String) :
    Database :=
  if db.episode_tags.any
      (fun t => t.episode_id == episode_id && t.concept_name == concept_name)
  then db
  else { db with episode_tags := db.episode_tags ++
      [{ episode_id := episode_id, concept_name := concept_name }] }

def list_episode_tags (db : Database) (episode_id : Nat) : List String :=
  sortBy strAsc
    ((db.episode_tags.filter (fun t => t.episode_id == episode_id)).map
      (·.concept_name))

def list_episodes_for_concept (db : Database) (concept : String) (limit : Nat) :
    List Episode :=
  (sortBy (idDesc Episode.id)
    (db.episodes.filter (fun e =>
      db.episode_tags.any (fun t => t.episode_id == e.id && t.concept_name == concept)))).take
    limit

/-- Inserts evidence with the fixed initial trust `0.50`; returns the new
database and `last_insert_rowid`. -/
def add_evidence (db : Database) (concept_name content : String)
    (source domain : Option String) : Database × Nat :=
  let id := nextId (db.evidence.map (·.id))
  ({ db with evidence := db.evidence ++
      [{ id := id, concept_name := concept_name, content := content,
         source := source, domain := domain, trust := 1/2, created_at := now }] },
   id)

def list_evidence_for (db : Database) (concept_name : String) (limit : Nat) :
    List Evidence :=
  (sortBy (idDesc Evidence.id)
    (db.evidence.filter (fun e => e.concept_name == concept_name))).take limit

def get_evidence (db : Database) (id : Int) : Option Evidence :=
  db.evidence.find? (fun e => (e.id : Int) == id)

/-- `adjust_trust`: reads the row, steps trust by `±0.1` clamped to
`[0,1]` (any other direction string leaves it unchanged), writes it back
and re-reads it. -/
def adjust_trust (db : Database) (id : Int) (direction : String) :
    Database × Option Evidence :=
  match db.get_evidence id with
  | none => (db, none)
  | some ev =>
      let trust :=
        if direction == "up" then min (ev.trust + 1/10) 1
        else if direction == "down" then max (ev.trust - 1/10) 0
        else ev.trust
      let db' := { db with evidence := db.evidence.map fun e =>
        if (e.id : Int) == id then { e with trust := trust } else e }
      (db', db'.get_evidence id)

/-- `INSERT INTO skills` with a `UNIQUE` name column: fails (returns
`none`) on a duplicate name. -/
def add_skill (db : Database) (name description : String) :
    Option (Database × Nat) :=
  if db.skills.any (fun s => s.name == name) then none
  else
    let id := nextId (db.skills.map (·.id))
    some ({ db with skills := db.skills ++
        [{ id := id, name := name, description := description,
           created_at := now }] },
      id)

def get_skill (db : Database) (name : String) : Option Skill :=
  db.skills.find? (fun s => s.name == name)

def list_skills (db : Database) (limit : Nat) : List Skill :=
  (sortBy (idDesc Skill.id) db.skills).take limit

def add_skill_step (db : Database) (skill_id : Nat) (step_no : Nat) (text : String)
    (evidence_id episode_id : Option Int) : Database × Nat :=
  let id := nextId (db.skill_steps.map (·.id))
  ({ db with skill_steps := db.skill_steps ++
      [{ id := id, skill_id := skill_id, step_no := step_no, text := text,
         evidence_id := evidence_id, episode_id := episode_id,
         created_at := now }] },
   id)

def list_skill_steps (db : Database) (skill_id : Nat) : List SkillStep :=
  sortBy (fun a b => decide (a.step_no ≤ b.step_no))
    (db.skill_steps.filter (fun s => s.skill_id == skill_id))

end Database

/-! ## Dialog module (`src/modules/dialog.rs`) -/

/-- Rust `format!` with the `{:.2}` specifier, for rationals (rounds to
two decimals; the Rust float formatter rounds ties to even, which never
matters for the values this program displays). -/
def fmt2 (q : ℚ) : String :=
  let m : Int := ⌊q * 100 + 1/2⌋
  let a := m.natAbs
  let frac := a % 100
  let fs := if frac < 10 then "0" ++ toString frac else toString frac
  (if m < 0 then "-" else "") ++ toString (a / 100) ++ "." ++ fs

structure Proposal where
  name : String
  definition : String
  confidence : ℚ
deriving DecidableEq

inductive PendingAction where
  | Concept (p : Proposal)
  | Relation (from_ relation_type to_ : String)
  | Episode (outcome summary : String)
  | Evidence (concept content : String) (source domain : Option String)
  | TagEpisode (episode_id : Nat) (tags : List String) (outcome : String)
  | Recalc (updates : List ConfidenceUpdate)
  | TrustAdjust (evidence_id : Int) (direction : String)
  | SkillNew (name description : String)
  | SkillAdd (name text : String)
  | Suggestion (plans : List String)
deriving DecidableEq

structure Dialog where
  input : String
  history : List String
  db : Database
  pending : Option PendingAction
  ollama_available : Bool
deriving DecidableEq

/-- `Dialog::push`: append a line, then cap the history buffer. -/
def pushH (h : List String) (line : String) : List String :=
  let h' := h ++ [line]
  if 240 < h'.length then h'.drop 70 else h'

def Dialog.push (d : Dialog) (line : String) : Dialog :=
  { d with history := pushH d.history line }

def pushAll (d : Dialog) (lines : List String) : Dialog :=
  lines.foldl Dialog.push d

def eliza_reflect (text : String) : String :=
  "MOTHER: Why do you say " ++ sq ++ text ++ sq ++ "?"

/-- Rust `str::strip_prefix`. -/
def dropPre (p s : String) : Option String :=
  if s.startsWith p then some (s.drop p.length) else none

/-- Rust `str::splitn(2, sep)` for a character separator, with both parts
read back through `unwrap_or("")`. -/
def splitn2Char (sep : Char) (s : String) : String × String :=
  let pre := s.data.takeWhile (fun c => !(c == sep))
  (String.mk pre, String.mk (s.data.drop (pre.length + 1)))

/-- Rust `str::splitn(2, sep)` for a string separator: `none` when the
separator does not occur (one fragment), otherwise the two fragments. -/
def splitOnFirst (sep s : String) : Option (String × String) :=
  match breakOn sep.data s.data with
  | some (pre, post) => some (String.mk pre, String.mk post)
  | none => none

/-- Rust `str::split_whitespace`. -/
def splitWs (s : String) : List String :=
  (s.split (fun c => c.isWhitespace)).filter (fun t => !t.isEmpty)

/-- `Dialog::derive_domain`: the text between the first `"://"` and the
next `'/'`. -/
def derive_domain (source : String) : Option String :=
  match breakOn (("://").data) source.data with
  | some (_, post) => some (String.mk (post.takeWhile (fun c => !(c == '/'))))
  | none => none

/-- `Dialog::suggest_tags`: collect every listed concept name occurring in
the lowercased summary.  The Rust code accumulates the matches in a
`HashSet` and hands them back in that set's (unspecified) iteration order;
since concept names are unique the set's elements are exactly the matching
names, modelled here in the filtered list order. -/
def suggest_tags (db : Database) (summary : String) : Option (List String) :=
  let names := db.list_concept_names 500
  let lower := summary.toLower
  let found := names.filter (fun n => hasSub lower.data n.data)
  if found.isEmpty then none else some found

def render_evidence_update_lines (ev : Evidence) : List String :=
  ("MOTHER: Evidence #" ++ toString ev.id ++ " trust now " ++ fmt2 ev.trust ++
    " (concept " ++ ev.concept_name ++ ").") ::
  (match ev.domain with
   | some d => ["  Domain: " ++ d]
   | none => [])

/-- The lines pushed by `Dialog::show_concept`. -/
def show_concept_lines (db : Database) (c : Concept) : List String :=
  ["MOTHER: CONCEPT RECORD",
   "  Name: " ++ c.name,
   "  Definition: " ++ c.definition,
   "  Confidence: " ++ fmt2 c.confidence,
   "  Created: " ++ c.created_at] ++
  (let history := db.concept_confidence_history c.name
   if history.isEmpty then []
   else "  Events:" :: history.map (fun p => "    - " ++ p.1 ++ " @ " ++ p.2))

/-- The lines pushed by `Dialog::show_recent_episodes`. -/
def show_recent_episodes_lines (db : Database) (concept : Option String) :
    List String :=
  let fetch := match concept with
    | some c => db.list_episodes_for_concept c 20
    | none => db.list_episodes 20
  if fetch.isEmpty then ["MOTHER: No episodes stored yet."]
  else
    (match concept with
     | some c => "MOTHER: Episodes tagged with " ++ sq ++ c ++ sq ++ ":"
     | none => "MOTHER: Recent episodes:") ::
    fetch.flatMap (fun e =>
      ("  - [" ++ e.outcome ++ "] #" ++ toString e.id ++ " " ++ e.captured_at ++
        "  " ++ e.summary) ::
      (let tags := db.list_episode_tags e.id
       if tags.isEmpty then []
       else ["    tags: " ++ String.intercalate (", ") tags]))

/-- The lines pushed by `Dialog::show_skill`. -/
def show_skill_lines (db : Database) (name : String) (run : Bool) : List String :=
  match db.get_skill name with
  | some skill =>
      ("MOTHER: Skill " ++ sq ++ skill.name ++ sq ++ ": " ++ skill.description) ::
      (match db.list_skill_steps skill.id with
       | [] => ["  (no steps yet)"]
       | steps => steps.map (fun st =>
           "  " ++ (if run then ">>" else "--") ++ " [" ++ toString st.step_no ++
             "] " ++ st.text))
  | none => ["MOTHER: No skill named " ++ sq ++ name ++ sq]

/-- `Dialog::gaps_report` (read-only). -/
def gaps_report (db : Database) : Option (List String) :=
  let concepts := db.list_concepts 1000
  let rels := db.list_all_relations 10000
  let evidence := concepts.map (fun c => (c.name, (db.list_evidence_for c.name 1).length))
  let plans :=
    ((evidence.filter (fun p => p.2 == 0)).map
      (fun p => "search evidence for concept " ++ sq ++ p.1 ++ sq)) ++
    ((concepts.filter (fun c =>
        !(rels.any (fun r => r.from_ == c.name || r.to_ == c.name)))).map
      (fun c => "search relations for " ++ sq ++ c.name ++ sq)) ++
    ((concepts.flatMap (fun c =>
        (db.list_evidence_for c.name 50).filter (fun ev => decide (ev.trust < 3/10)))).map
      (fun ev => "review evidence trust #" ++ toString ev.id)) ++
    ((concepts.filter (fun c => decide (c.confidence < 3/10))).map
      (fun c => "search to reinforce " ++ sq ++ c.name ++ sq))
  if plans.isEmpty then none else some plans

/-- Message text of the pending-proposal gate. -/
def resolveFirstMsg : String := "MOTHER: Resolve current proposal first ([y]/[n])."

/-- Error line for a failed persistence call; the concrete text appends
the backend error, which is outside this model. -/
def dbErrorLine : String := "MOTHER: DB error: UNIQUE constraint failed: skills.name"

/-- The outcome of one `handle_command` run: the lines pushed and, when
the branch assigns `self.pending`, the assigned value.  `handle_command`
only ever reads the database, which this representation makes explicit. -/
structure CmdOut where
  msgs : List String
  setPending : Option (Option PendingAction)
deriving DecidableEq

/-- The command dispatch of `Dialog::handle_command` after the empty-line
and pending-proposal gates, branch for branch, on the trimmed line. -/
def commandDispatch (db : Database) (ollama_available : Bool)
    (trimmed : String) : CmdOut :=
  if trimmed.toLower == "recalc" then
    match db.calculate_confidence_updates with
    | [] => ⟨["MOTHER: Confidence already up-to-date."], none⟩
    | updates =>
        ⟨"MOTHER: PROPOSAL: apply confidence recalculation." ::
          ((updates.take 10).map (fun u =>
            "  " ++ u.concept ++ ": " ++ fmt2 u.old ++ " -> " ++ fmt2 u.new)) ++
          (if 10 < updates.length then
            ["  ...and " ++ toString (updates.length - 10) ++ " more"]
           else []) ++
          ["Confirm? [y]/[n]"],
         some (some (.Recalc updates))⟩
  else if trimmed.toLower == "gaps" then
    match gaps_report db with
    | some plans =>
        ⟨("MOTHER: GAP PROPOSALS:" :: plans.map (fun p => "  PLAN: " ++ p)) ++
          ["Accept proposed plans? (no execution) [y]/[n]"],
         some (some (.Suggestion plans))⟩
    | none => ⟨["MOTHER: No gaps detected."], none⟩
  else if trimmed.toLower.startsWith ("episodes") then
    let parts := splitWs trimmed
    if parts.length == 1 then ⟨show_recent_episodes_lines db none, none⟩
    else
      ⟨show_recent_episodes_lines db (some (((parts.get? 1).getD "").toLower)), none⟩
  else match dropPre ("ep ") trimmed with
  | some rest =>
      let pr := splitn2Char ' ' rest
      let outcome := pr.1.trim.toLower
      let summary := pr.2.trim
      let valid := outcome == "ok" || outcome == "fail" || outcome == "note"
      if !valid || summary.isEmpty then
        ⟨["MOTHER: Format is: ep ok <what worked> | ep fail <what failed> | ep note <note>"],
         none⟩
      else
        ⟨["MOTHER: PROPOSAL: store episode [" ++ outcome ++ "] " ++ summary,
          "Confirm? [y]/[n]"],
         some (some (.Episode outcome summary))⟩
  | none => match dropPre ("evidence ") trimmed with
  | some rest =>
      let parts := rest.splitOn ("::")
      if parts.length < 2 then
        ⟨["MOTHER: Format: evidence <concept> :: <content> [:: <source>]"], none⟩
      else
        let concept := ((parts.get? 0).getD "").trim.toLower
        let content := ((parts.get? 1).getD "").trim
        let source := match parts.get? 2 with
          | some s => let t := s.trim; if t.isEmpty then none else some t
          | none => none
        if concept.isEmpty || content.isEmpty then
          ⟨["MOTHER: concept and content required."], none⟩
        else match db.get_concept concept with
          | some _ =>
              let domain := source.bind derive_domain
              ⟨["MOTHER: PROPOSAL: attach evidence",
                "  Concept: " ++ concept,
                "  Content: " ++ content,
                "Confirm? [y]/[n]"],
               some (some (.Evidence concept content source domain))⟩
          | none =>
              ⟨["MOTHER: No known concept " ++ sq ++ concept ++ sq ++ "."], none⟩
  | none => match dropPre ("trust ") trimmed with
  | some rest =>
      let parts := splitWs rest
      if parts.length != 2 then
        ⟨["MOTHER: trust format: trust <evidence_id> up|down"], none⟩
      else match ((parts.get? 0).getD "").toInt? with
        | none => ⟨["MOTHER: evidence id must be a number."], none⟩
        | some id =>
            let direction := ((parts.get? 1).getD "").toLower
            if direction != "up" && direction != "down" then
              ⟨["MOTHER: trust direction must be up|down."], none⟩
            else
              ⟨["MOTHER: PROPOSAL: trust " ++ toString id ++ " " ++ direction,
                "Confirm? [y]/[n]"],
               some (some (.TrustAdjust id direction))⟩
  | none =>
  if trimmed.toLower == "list" then
    match db.list_concepts 20 with
    | [] => ⟨["MOTHER: No concepts stored yet."], none⟩
    | items =>
        ⟨"MOTHER: Recent concepts:" ::
          items.map (fun c => "  - " ++ c.name ++ " (conf " ++ fmt2 c.confidence ++ ")"),
         none⟩
  else match dropPre ("show ") trimmed with
  | some rest =>
      let name := rest.trim.toLower
      match db.get_concept name with
      | some c => ⟨show_concept_lines db c, none⟩
      | none =>
          ⟨["MOTHER: I have no concept named " ++ sq ++ name ++ sq ++ "."], none⟩
  | none => match dropPre ("learn ") trimmed with
  | some rest =>
      match splitOnFirst (" is ") rest with
      | none => ⟨["MOTHER: Format is: learn <concept> is <definition>"], none⟩
      | some (p1, p2) =>
          let name := p1.trim.toLower
          let definition := p2.trim
          if name.isEmpty || definition.isEmpty then
            ⟨["MOTHER: Concept name and definition must be non-empty."], none⟩
          else
            ⟨["MOTHER: PROPOSAL CREATED.",
              "  Concept: " ++ name,
              "  Definition: " ++ definition,
              "MOTHER: Confirm? [y]es / [n]o"],
             some (some (.Concept ⟨name, definition, 2/5⟩))⟩
  | none => match dropPre ("rel ") trimmed with
  | some rest =>
      let parts := splitWs rest
      if parts.length < 3 then
        ⟨["MOTHER: Format is: rel <from> <type> <to>",
          "MOTHER: Example: rel jwt used_for authentication"], none⟩
      else
        let from_ := ((parts.get? 0).getD "").trim.toLower
        let relation_type := ((parts.get? 1).getD "").trim.toLower
        let to_ := (String.intercalate (" ") (parts.drop 2)).trim.toLower
        if from_.isEmpty || relation_type.isEmpty || to_.isEmpty then
          ⟨["MOTHER: rel fields must be non-empty."], none⟩
        else
          ⟨["MOTHER: PROPOSAL: link " ++ from_ ++ " --" ++ relation_type ++ "--> " ++ to_,
            "Confirm? [y]/[n]"],
           some (some (.Relation from_ relation_type to_))⟩
  | none => match dropPre ("skill ") trimmed with
  | some rest =>
      let lower := rest.toLower
      match dropPre ("new ") lower with
      | some cmd =>
          let parts := cmd.splitOn ("::")
          if parts.length != 2 then
            ⟨["MOTHER: skill new <name> :: <description>"], none⟩
          else
            let name := ((parts.get? 0).getD "").trim.toLower
            let desc := ((parts.get? 1).getD "").trim
            if name.isEmpty || desc.isEmpty then
              ⟨["MOTHER: skill name and description required."], none⟩
            else
              ⟨["MOTHER: PROPOSAL: new skill " ++ sq ++ name ++ sq ++ " :: " ++ desc,
                "Confirm? [y]/[n]"],
               some (some (.SkillNew name desc))⟩
      | none => match dropPre ("add ") lower with
      | some cmd =>
          let parts := cmd.splitOn ("::")
          if parts.length != 2 then
            ⟨["MOTHER: skill add <name> :: <step>"], none⟩
          else
            let name := ((parts.get? 0).getD "").trim.toLower
            let step := ((parts.get? 1).getD "").trim
            if name.isEmpty || step.isEmpty then
              ⟨["MOTHER: skill name and step required."], none⟩
            else
              ⟨["MOTHER: PROPOSAL: append skill " ++ sq ++ name ++ sq ++ " step: " ++ step,
                "Confirm? [y]/[n]"],
               some (some (.SkillAdd name step))⟩
      | none => match dropPre ("show ") lower with
      | some nm => ⟨show_skill_lines db (nm.trim.toLower) false, none⟩
      | none => match dropPre ("run ") lower with
      | some nm => ⟨show_skill_lines db (nm.trim.toLower) true, none⟩
      | none => ⟨["MOTHER: skill commands: new | add | show | run"], none⟩
  | none =>
  if trimmed.toLower == "model status" then
    if ollama_available then
      ⟨["MOTHER: Local model detected. Outputs will remain proposals requiring approval."],
       none⟩
    else
      ⟨["MOTHER: No local model detected; skipping model suggestions."], none⟩
  else ⟨[eliza_reflect trimmed], none⟩

/-- `Dialog::handle_command` as a function of the read state: the two
gates, then the dispatch. -/
def commandOut (db : Database) (pending : Option PendingAction)
    (ollama_available : Bool) (line : String) : CmdOut :=
  let trimmed := line.trim
  if trimmed.isEmpty then ⟨[], none⟩
  else if pending.isSome then ⟨[resolveFirstMsg], none⟩
  else commandDispatch db ollama_available trimmed

def applyOut (d : Dialog) (o : CmdOut) : Dialog :=
  let d' := pushAll d o.msgs
  match o.setPending with
  | some p => { d' with pending := p }
  | none => d'

def Dialog.handle_command (d : Dialog) (line : String) : Dialog :=
  applyOut d (commandOut d.db d.pending d.ollama_available line)

/-- `Dialog::confirm_pending`.  It first `take()`s the pending action and
then commits it; a confirmed episode may immediately queue the nested tag
proposal. -/
def Dialog.confirm_pending (d : Dialog) : Dialog :=
  let d0 : Dialog := { d with pending := none }
  match d.pending with
  | some (.Concept p) =>
      let db2 := (d0.db.upsert_concept p.name p.definition p.confidence).record_confidence_event
        p.name ("confirm_claim")
      pushAll { d0 with db := db2 }
        ["MOTHER: COMMITTED.", "  Stored concept " ++ sq ++ p.name ++ sq ++ "."]
  | some (.Relation f rt t) =>
      pushAll { d0 with db := d0.db.upsert_relation f rt t }
        ["MOTHER: Linked " ++ f ++ " --" ++ rt ++ "--> " ++ t]
  | some (.Episode outcome summary) =>
      let pr := d0.db.add_episode outcome summary
      let d1 := pushAll { d0 with db := pr.1 }
        ["MOTHER: EPISODE RECORDED [" ++ outcome ++ "] #" ++ toString pr.2 ++ " " ++ summary]
      match suggest_tags pr.1 summary with
      | some tags =>
          pushAll { d1 with pending := some (.TagEpisode pr.2 tags outcome) }
            (("MOTHER: Proposed tags for episode:" :: tags.map (fun t => "  - " ++ t)) ++
              ["Apply tags? [y]/[n]"])
      | none => d1
  | some (.Evidence concept content source domain) =>
      let pr := d0.db.add_evidence concept content source domain
      let d1 := { d0 with db := pr.1.record_confidence_event concept ("confirm_claim") }
      pushAll d1
        (("MOTHER: Evidence stored #" ++ toString pr.2 ++ " for " ++ concept) ::
          (match source with | some src => ["  Source: " ++ src] | none => []) ++
          (match domain with | some dom => ["  Domain: " ++ dom] | none => []))
  | some (.TagEpisode episode_id tags outcome) =>
      let db1 := tags.foldl (fun db t =>
        let evt := if outcome == "ok" then "episode_ok"
          else if outcome == "fail" then "episode_fail" else "episode_note"
        (db.add_episode_tag episode_id t).record_confidence_event t evt) d0.db
      Dialog.push { d0 with db := db1 }
        ("MOTHER: Tags applied to episode #" ++ toString episode_id ++ ".")
  | some (.Recalc updates) =>
      pushAll { d0 with db := d0.db.apply_confidence_updates updates }
        ("MOTHER: Confidence recalculated." ::
          ((updates.take 10).map (fun u =>
            "  " ++ u.concept ++ ": " ++ fmt2 u.old ++ " -> " ++ fmt2 u.new)) ++
          (if 10 < updates.length then
            ["  ...and " ++ toString (updates.length - 10) ++ " more"]
           else []))
  | some (.TrustAdjust evidence_id direction) =>
      let pr := d0.db.adjust_trust evidence_id direction
      match pr.2 with
      | some ev => pushAll { d0 with db := pr.1 } (render_evidence_update_lines ev)
      | none =>
          Dialog.push { d0 with db := pr.1 }
            ("MOTHER: No evidence with id " ++ toString evidence_id)
  | some (.SkillNew name description) =>
      match d0.db.add_skill name description with
      | some pr =>
          Dialog.push { d0 with db := pr.1 }
            ("MOTHER: Skill " ++ sq ++ name ++ sq ++ " created (#" ++ toString pr.2 ++ ").")
      | none => Dialog.push d0 dbErrorLine
  | some (.SkillAdd name text) =>
      match d0.db.get_skill name with
      | some skill =>
          let steps := d0.db.list_skill_steps skill.id
          let next_no := steps.length + 1
          let pr := d0.db.add_skill_step skill.id next_no text none none
          Dialog.push { d0 with db := pr.1 }
            ("MOTHER: Added step " ++ toString next_no ++ " to " ++ sq ++ skill.name ++
              sq ++ " (#" ++ toString pr.2 ++ ").")
      | none => Dialog.push d0 ("MOTHER: No skill named " ++ sq ++ name ++ sq ++ ".")
  | some (.Suggestion plans) =>
      pushAll d0
        ("MOTHER: Plans acknowledged (no automatic execution)." ::
          plans.map (fun p => "  PLAN: " ++ p))
  | none => Dialog.push d0 ("MOTHER: No pending proposal.")

/-- `Dialog::reject_pending`.  Note the Rust code calls
`self.pending.take()` inside the `if let` pattern, so a non-concept
proposal is removed by that first `take()` and the second `take()` then
reports "No pending proposal." — the proposal is still cleared with no
store effect, only the message differs. -/
def Dialog.reject_pending (d : Dialog) : Dialog :=
  match d.pending with
  | some (.Concept p) =>
      Dialog.push
        { d with pending := none,
                 db := d.db.record_confidence_event p.name ("reject_claim") }
        ("MOTHER: Proposal rejected.")
  | some _ => Dialog.push { d with pending := none } ("MOTHER: No pending proposal.")
  | none => Dialog.push d ("MOTHER: No pending proposal.")

/-- The key events `Dialog::handle_input` distinguishes. -/
inductive KeyCode where
  | char (c : Char)
  | backspace
  | enter
  | other
deriving DecidableEq

def Dialog.handle_input (d : Dialog) (k : KeyCode) : Dialog :=
  match k with
  | .char c =>
      if c == 'y' && d.pending.isSome then d.confirm_pending
      else if c == 'n' && d.pending.isSome then d.reject_pending
      else { d with input := d.input.push c }
  | .backspace => { d with input := d.input.dropRight 1 }
  | .enter =>
      let line := d.input
      let d1 := Dialog.push d ("YOU: " ++ line)
      let d2 := { d1 with input := "" }
      d2.handle_command line
  | .other => d

/-! ## Graph analyzer (`src/modules/graph.rs`)

`compute_clusters` builds an undirected adjacency `HashMap` (one key per
concept name and per relation endpoint, each key holding the `HashSet` of
its neighbours), then runs an iterative depth-first traversal over the
keys, collecting connected components.

Rust iterates `HashMap` keys and `HashSet` elements in an unspecified,
per-process-random order.  The embedding therefore takes the key
enumeration `ord : List String` and the neighbour enumeration
`nbr : String → List String` as parameters; `validOrd` / `validNbr` say
they enumerate exactly the right sets, without duplicates. -/

structure ClusterInfo where
  nodes : List String
  top : List String
deriving DecidableEq

/-- The key set of the adjacency map: every concept name and every
relation endpoint. -/
def keySet (concepts : List Concept) (rels : List Relation) : List String :=
  (concepts.map (·.name) ++ rels.flatMap (fun r => [r.from_, r.to_])).dedup

/-- Membership in the adjacency `HashSet` of `n`: some relation links `n`
and `m` in either direction. -/
def isNeighbor (rels : List Relation) (n m : String) : Bool :=
  rels.any fun r => (r.from_ == n && r.to_ == m) || (r.to_ == n && r.from_ == m)

def validOrd (concepts : List Concept) (rels : List Relation)
    (ord : List String) : Prop :=
  ord.Nodup ∧ ∀ n, n ∈ ord ↔ n ∈ keySet concepts rels

def validNbr (rels : List Relation) (nbr : String → List String) : Prop :=
  ∀ n, (nbr n).Nodup ∧ ∀ m, m ∈ nbr n ↔ isNeighbor rels n m = true

/-- The inner `while let Some(n) = stack.pop()` loop of `compute_clusters`.
`unvisited` is the complement of the Rust `visited` set (restricted to the
key set), `acc` is the `nodes` vector.  Popping `n` appends it to `acc`,
then pushes every not-yet-visited neighbour (marking it visited, i.e.
removing it from `unvisited`).  The `.dedup` is a no-op for a valid
(duplicate-free) neighbour enumeration and keeps the recursion total. -/
def dfsLoop (nbr : String → List String) (stack unvisited acc : List String) :
    List String × List String :=
  match stack with
  | [] => (acc, unvisited)
  | n :: rest =>
      let newNbrs := ((nbr n).dedup).filter (fun m => unvisited.contains m)
      dfsLoop nbr (newNbrs.reverse ++ rest)
        (unvisited.filter (fun m => !(newNbrs.contains m))) (acc ++ [n])
termination_by (unvisited.length, stack.length)
decreasing_by
  by_cases hne : ((nbr n).dedup).filter (fun m => unvisited.contains m) = []
  · rw [hne]
    simp only [List.contains_nil, Bool.not_false, List.filter_true,
      List.reverse_nil, List.nil_append]
    exact Prod.Lex.right _ (by simp)
  · apply Prod.Lex.left
    obtain ⟨a, ha⟩ := List.exists_mem_of_ne_nil _ hne
    have hmem := List.mem_filter.mp ha
    have hal : a ∈ unvisited := by
      have := hmem.2
      exact List.mem_of_elem_eq_true (by simpa using this)
    refine List.length_filter_lt_length_iff_exists.mpr ?_
    refine ⟨a, hal, ?_⟩
    simp
    exact ⟨List.mem_dedup.mp hmem.1, hal⟩

/-- The outer `for node in adjacency.keys()` loop: start a fresh DFS at
every not-yet-visited key, collecting the raw (pop-ordered) node list of
each component. -/
def clustersLoop (nbr : String → List String) :
    List String → List String → List (List String)
  | [], _ => []
  | k :: ord, unvisited =>
      if unvisited.contains k then
        let pr := dfsLoop nbr [k] (unvisited.erase k) []
        pr.1 :: clustersLoop nbr ord pr.2
      else clustersLoop nbr ord unvisited

/-- `top_nodes`: pair every node with its degree, stable-sort by degree
descending (`sort_by(|a, b| b.0.cmp(&a.0))`), take 3, project the names. -/
def top_nodes (nodes : List String) (deg : String → Nat) : List String :=
  (((sortBy (fun a b : Nat × String => decide (b.1 ≤ a.1))
      (nodes.map (fun n => (deg n, n)))).take 3).map (·.2))

/-- `compute_clusters` for a given key enumeration `ord` and neighbour
enumeration `nbr`: traverse, sort each component's nodes by name, compute
its top nodes, and stable-sort the clusters by node count descending
(`sort_by_key(|c| -(c.nodes.len() as isize))`). -/
def compute_clusters (ord : List String) (nbr : String → List String) :
    List ClusterInfo :=
  let raw := clustersLoop nbr ord ord
  let cls := raw.map (fun ns =>
    let nodes := sortBy strAsc ns
    { nodes := nodes, top := top_nodes nodes (fun n => ((nbr n).dedup).length) })
  sortBy (fun a b : ClusterInfo => decide (b.nodes.length ≤ a.nodes.length)) cls

/-! ## Dialog state lemmas -/

theorem push_db (d : Dialog) (l : String) : (d.push l).db = d.db := rfl

theorem push_pending (d : Dialog) (l : String) : (d.push l).pending = d.pending := rfl

theorem pushAll_db (ls : List String) : ∀ d : Dialog, (pushAll d ls).db = d.db := by
  induction ls with
  | nil => intro d; rfl
  | cons l ls ih => intro d; exact ih (d.push l)

theorem pushAll_pending (ls : List String) :
    ∀ d : Dialog, (pushAll d ls).pending = d.pending := by
  induction ls with
  | nil => intro d; rfl
  | cons l ls ih => intro d; exact ih (d.push l)

theorem pushAll_input (ls : List String) :
    ∀ d : Dialog, (pushAll d ls).input = d.input := by
  induction ls with
  | nil => intro d; rfl
  | cons l ls ih => intro d; exact ih (d.push l)

/-- `handle_command` never writes to the database: every branch only reads
it and possibly pushes messages or assigns `pending`. -/
theorem handle_command_db (d : Dialog) (line : String) :
    (d.handle_command line).db = d.db := by
  unfold Dialog.handle_command applyOut
  cases (commandOut d.db d.pending d.ollama_available line).setPending with
  | none => exact pushAll_db _ d
  | some p => exact pushAll_db _ d

theorem handle_command_input (d : Dialog) (line : String) :
    (d.handle_command line).input = d.input := by
  unfold Dialog.handle_command applyOut
  cases (commandOut d.db d.pending d.ollama_available line).setPending with
  | none => exact pushAll_input _ d
  | some p => exact pushAll_input _ d

/-- The pending-proposal gate: with a proposal pending and a nonempty
command line, `handle_command` answers only with the resolve-first
message. -/
theorem commandOut_of_pending (db : Database) (p : Option PendingAction)
    (fl : Bool) (line : String) (hp : p.isSome = true)
    (hne : line.trim.isEmpty = false) :
    commandOut db p fl line = ⟨[resolveFirstMsg], none⟩ := by
  unfold commandOut
  simp only [hne, hp, Bool.false_eq_true, if_false, if_true]

theorem handle_command_of_pending (d : Dialog) (line : String)
    (hp : d.pending.isSome = true) (hne : line.trim.isEmpty = false) :
    d.handle_command line = { d with history := pushH d.history resolveFirstMsg } := by
  unfold Dialog.handle_command
  rw [commandOut_of_pending d.db d.pending d.ollama_available line hp hne]
  rfl

/-! Preservation of the `concepts` table by the individual store
operations (everything except `upsert_concept` and
`apply_confidence_updates` leaves it untouched). -/

theorem record_event_concepts (db : Database) (c e : String) :
    (db.record_confidence_event c e).concepts = db.concepts := rfl

theorem upsert_relation_concepts (db : Database) (f rt t : String) :
    (db.upsert_relation f rt t).concepts = db.concepts := by
  unfold Database.upsert_relation; split <;> rfl

theorem add_episode_concepts (db : Database) (o s : String) :
    (db.add_episode o s).1.concepts = db.concepts := rfl

theorem add_episode_tag_concepts (db : Database) (i : Nat) (c : String) :
    (db.add_episode_tag i c).concepts = db.concepts := by
  unfold Database.add_episode_tag; split <;> rfl

theorem add_evidence_concepts (db : Database) (c ct : String) (s dm : Option String) :
    (db.add_evidence c ct s dm).1.concepts = db.concepts := rfl

theorem adjust_trust_concepts (db : Database) (i : Int) (dir : String) :
    (db.adjust_trust i dir).1.concepts = db.concepts := by
  unfold Database.adjust_trust
  cases db.get_evidence i <;> rfl

theorem add_skill_concepts (db : Database) (n ds : String) :
    ∀ pr, db.add_skill n ds = some pr → pr.1.concepts = db.concepts := by
  unfold Database.add_skill
  split
  · intro pr h; cases h
  · intro pr h
    injection h with h
    rw [← h]

theorem add_skill_step_concepts (db : Database) (sid sn : Nat) (t : String)
    (ev ep : Option Int) :
    (db.add_skill_step sid sn t ev ep).1.concepts = db.concepts := rfl

theorem tagFold_concepts (eid : Nat) (outc : String) :
    ∀ (tags : List String) (db : Database),
      (tags.foldl (fun db t =>
        let evt := if outc == "ok" then "episode_ok"
          else if outc == "fail" then "episode_fail" else "episode_note"
        (db.add_episode_tag eid t).record_confidence_event t evt) db).concepts =
      db.concepts := by
  intro tags
  induction tags with
  | nil => intro db; rfl
  | cons t ts ih =>
      intro db
      rw [List.foldl_cons, ih]
      simp only [record_event_concepts, add_episode_tag_concepts]

/-- Reading one concept's stored confidence. -/
def getConf (db : Database) (n : String) : Option ℚ :=
  (db.get_concept n).map (·.confidence)

theorem getConf_eq_of_concepts {db1 db2 : Database} (n : String)
    (h : db1.concepts = db2.concepts) : getConf db1 n = getConf db2 n := by
  unfold getConf Database.get_concept
  rw [h]

theorem setPending_db (d : Dialog) (p : Option PendingAction) :
    ({ d with pending := p } : Dialog).db = d.db := rfl

/-- `confirm_pending` leaves the `concepts` table unchanged except for a
concept proposal or a recalculation proposal. -/
theorem confirm_pending_concepts (d : Dialog)
    (hC : ∀ p, d.pending ≠ some (.Concept p))
    (hR : ∀ us, d.pending ≠ some (.Recalc us)) :
    (d.confirm_pending).db.concepts = d.db.concepts := by
  unfold Dialog.confirm_pending
  cases hp : d.pending with
  | none => rfl
  | some pa =>
      cases pa with
      | Concept p => exact absurd hp (hC p)
      | Recalc us => exact absurd hp (hR us)
      | Relation f rt t =>
          rw [pushAll_db]
          exact upsert_relation_concepts _ f rt t
      | Episode outcome summary =>
          simp only [setPending_db]
          cases hsg : suggest_tags (d.db.add_episode outcome summary).1 summary with
          | some tags => rw [pushAll_db, setPending_db, pushAll_db]; rfl
          | none => rw [pushAll_db]; rfl
      | Evidence c ct s dm => rw [pushAll_db]; rfl
      | TagEpisode eid tags outc =>
          rw [push_db]
          exact tagFold_concepts eid outc tags _
      | TrustAdjust i dir =>
          simp only [setPending_db]
          cases h2 : (d.db.adjust_trust i dir).2 with
          | some ev =>
              rw [pushAll_db]
              exact adjust_trust_concepts _ i dir
          | none =>
              rw [push_db]
              exact adjust_trust_concepts _ i dir
      | SkillNew nm ds =>
          simp only [setPending_db]
          cases hsk : d.db.add_skill nm ds with
          | some pr =>
              rw [push_db]
              exact add_skill_concepts _ nm ds pr hsk
          | none => rw [push_db]
      | SkillAdd nm tx =>
          simp only [setPending_db]
          cases hgs : d.db.get_skill nm with
          | some skill => rw [push_db]; rfl
          | none => rw [push_db]
      | Suggestion plans => rw [pushAll_db]

theorem reject_pending_concepts (d : Dialog) :
    (d.reject_pending).db.concepts = d.db.concepts := by
  unfold Dialog.reject_pending
  cases hp : d.pending with
  | none => rfl
  | some pa => cases pa <;> rfl

/-- `find?` by name over an update that only rewrites the rows named `nm`
(keeping every row's name) is unchanged for any other name. -/
theorem find?_map_update (nm df : String) (cf : ℚ) (n : String) (h : ¬ nm = n) :
    ∀ cs : List Concept,
      ((cs.map (fun c => if c.name == nm then
          { c with definition := df, confidence := cf } else c)).find?
        (fun c => c.name == n)) = cs.find? (fun c => c.name == n) := by
  intro cs
  induction cs with
  | nil => rfl
  | cons c cs ih =>
      by_cases hc : c.name = nm
      · have hcn : ¬ c.name = n := fun he => h (hc ▸ he)
        rw [List.map_cons, List.find?_cons_of_neg, List.find?_cons_of_neg, ih]
        all_goals simp_all
      · by_cases hn : c.name = n
        · rw [List.map_cons, List.find?_cons_of_pos, List.find?_cons_of_pos]
          all_goals simp_all
        · rw [List.map_cons, List.find?_cons_of_neg, List.find?_cons_of_neg, ih]
          all_goals simp_all

/-- Upserting one concept does not disturb any other concept's stored
confidence. -/
theorem getConf_upsert_ne (db : Database) (nm df : String) (cf : ℚ) {n : String}
    (h : ¬ nm = n) :
    getConf (db.upsert_concept nm df cf) n = getConf db n := by
  unfold getConf Database.get_concept Database.upsert_concept
  split
  · rw [find?_map_update nm df cf n h db.concepts]
  · rw [List.find?_append]
    have hbe : (nm == n) = false := by simp [h]
    simp [List.find?, hbe]

/-- C3: at most one `PendingAction` can exist (the `pending` field of the
dialog state is a single `Option`), and while one is pending any nonempty
submitted command line — in particular any mutating intent — is dropped:
the store, the pending proposal and the input buffer are unchanged, and
the operator receives only the resolve-current-proposal-first message. -/
theorem C3_pending_gate (d : Dialog) (line : String)
    (hp : d.pending.isSome = true) (hne : line.trim.isEmpty = false) :
    (d.handle_command line).db = d.db ∧
    (d.handle_command line).pending = d.pending ∧
    (d.handle_command line).input = d.input ∧
    (d.handle_command line).history = pushH d.history resolveFirstMsg := by
  rw [handle_command_of_pending d line hp hne]
  exact ⟨rfl, rfl, rfl, rfl⟩

/-- A small store: one concept `jwt` at confidence 0.30 with two
`confirm_claim` events and one trust-0.70 evidence row. -/
def dbJwt : Database :=
  ⟨[⟨1, "jwt", "token", 3/10, "t"⟩], [], [], [],
   [⟨1, "jwt", "e", none, none, 7/10, "t"⟩],
   [⟨"jwt", "confirm_claim", "t"⟩, ⟨"jwt", "confirm_claim", "t"⟩], [], []⟩

def dGate : Dialog := ⟨"", [], dbJwt, some (.Relation "a" "uses" "b"), false⟩

theorem C3_pending_gate_witness :
    dGate.pending.isSome = true ∧ ("learn x is y".trim.isEmpty = false) ∧
    ((dGate.handle_command "learn x is y").db = dGate.db ∧
     (dGate.handle_command "learn x is y").pending = dGate.pending ∧
     (dGate.handle_command "learn x is y").input = dGate.input ∧
     (dGate.handle_command "learn x is y").history =
       pushH dGate.history resolveFirstMsg) :=
  ⟨by with_unfolding_all decide, by with_unfolding_all decide,
   C3_pending_gate dGate "learn x is y" (by with_unfolding_all decide)
     (by with_unfolding_all decide)⟩

/-- C1, as stated: a read-only intent submitted while a proposal is
pending would be "processed and answered normally".  It is not: the gate
at the top of `handle_command` fires first.  At this concrete state the
command `list` is answered with the resolve-first message instead of the
concept listing it produces in the idle state. -/
def dIdle : Dialog := ⟨"", [], dbJwt, none, false⟩

theorem C1_counterexample :
    (dGate.handle_command "list").history = [resolveFirstMsg] ∧
    (dGate.handle_command "list").pending = some (.Relation "a" "uses" "b") ∧
    (dIdle.handle_command "list").history =
      ["MOTHER: Recent concepts:", "  - jwt (conf 0.30)"] ∧
    ¬ (dGate.handle_command "list").history = (dIdle.handle_command "list").history := by
  with_unfolding_all decide

/-- C1 (amended): read-only command lines are not routed around the
Proposal Engine's gate.  While a proposal is pending, `list`, `gaps`,
`episodes …` and `show …` are dropped like every other command: the state
is unchanged except for the resolve-current-proposal-first message. -/
theorem C1_readonly_gated (d : Dialog) (line : String)
    (hp : d.pending.isSome = true)
    (hro : line.trim = "list" ∨ line.trim = "gaps" ∨
      line.trim.toLower.startsWith ("episodes") = true ∨
      line.trim.startsWith ("show ") = true) :
    d.handle_command line = { d with history := pushH d.history resolveFirstMsg } := by
  refine handle_command_of_pending d line hp ?_
  rcases hro with h | h | h | h
  · rw [h]; decide
  · rw [h]; decide
  · cases he : line.trim.isEmpty
    · rfl
    · exfalso
      have hemp : line.trim = "" := (String.isEmpty_iff line.trim).mp he
      rw [hemp] at h
      exact absurd h (by with_unfolding_all decide)
  · cases he : line.trim.isEmpty
    · rfl
    · exfalso
      have hemp : line.trim = "" := (String.isEmpty_iff line.trim).mp he
      rw [hemp] at h
      exact absurd h (by with_unfolding_all decide)

theorem C1_readonly_gated_witness :
    dGate.pending.isSome = true ∧ ("show jwt".trim = "list" ∨ "show jwt".trim = "gaps" ∨
      "show jwt".trim.toLower.startsWith ("episodes") = true ∨
      "show jwt".trim.startsWith ("show ") = true) ∧
    dGate.handle_command "show jwt" =
      { dGate with history := pushH dGate.history resolveFirstMsg } :=
  ⟨by with_unfolding_all decide, by with_unfolding_all decide,
   C1_readonly_gated dGate "show jwt" (by with_unfolding_all decide)
     (by with_unfolding_all decide)⟩

/-- C8, as stated: an existing concept's stored confidence may only change
through a confirmed recalculation (the Confidence Engine's
`apply_updates`); its creation-time initial value cannot apply to a
concept that already exists. -/
def ClaimC8 : Prop :=
  ∀ (d : Dialog) (k : KeyCode) (n : String),
    (getConf d.db n).isSome = true →
    getConf ((d.handle_input k).db) n = getConf d.db n ∨
    ∃ us, d.pending = some (.Recalc us) ∧ k = KeyCode.char 'y'

def dC8 : Dialog :=
  ⟨"", [], ⟨[⟨1, "jwt", "d1", 13/20, "t"⟩], [], [], [], [], [], [], []⟩,
   some (.Concept ⟨"jwt", "d2", 2/5⟩), false⟩

/-- C8 counterexample: confirming a `learn` proposal for an already
existing concept (`learn jwt is d2` at stored confidence 0.65) overwrites
that concept's confidence with the proposal value 0.40 — a mutation that
is neither the Confidence Engine nor a creation. -/
theorem C8_counterexample : ¬ ClaimC8 := by
  intro h
  rcases h dC8 (.char 'y') "jwt" (by with_unfolding_all decide) with h1 | ⟨us, h2, _⟩
  · exact absurd h1 (by with_unfolding_all decide)
  · exact absurd h2 (by simp [dC8])

/-- C8 (amended): an existing concept's stored confidence changes only
through a confirmed recalculation (`apply_updates`) or through a
confirmed concept proposal bearing that concept's name, whose
`upsert_concept` overwrites the stored confidence with the proposal value;
every other key event (and every command line, which never writes the
store) leaves every concept's confidence unchanged. -/
theorem C8_confidence_mutators (d : Dialog) (k : KeyCode) (n : String) :
    getConf ((d.handle_input k).db) n = getConf d.db n ∨
    (k = KeyCode.char 'y' ∧
      ((∃ p, d.pending = some (.Concept p) ∧ p.name = n) ∨
       (∃ us, d.pending = some (.Recalc us)))) := by
  cases k with
  | backspace => left; rfl
  | other => left; rfl
  | enter =>
      left
      unfold Dialog.handle_input
      rw [handle_command_db]
      rfl
  | char c =>
      unfold Dialog.handle_input
      by_cases hy : (c == 'y' && d.pending.isSome) = true
      · have hcy : c = 'y' := by
          have h' := hy
          simp only [Bool.and_eq_true, beq_iff_eq] at h'
          exact h'.1
        simp only [hy, if_true]
        by_cases hCp : ∃ p, d.pending = some (.Concept p)
        · obtain ⟨p, hp⟩ := hCp
          by_cases hnm : p.name = n
          · right
            exact ⟨by rw [hcy], Or.inl ⟨p, hp, hnm⟩⟩
          · left
            have hdb : (d.confirm_pending).db =
                (d.db.upsert_concept p.name p.definition p.confidence).record_confidence_event
                  p.name ("confirm_claim") := by
              unfold Dialog.confirm_pending
              rw [hp, pushAll_db]
            rw [hdb]
            exact (getConf_eq_of_concepts n (record_event_concepts _ _ _)).trans
              (getConf_upsert_ne d.db p.name p.definition p.confidence hnm)
        · by_cases hRp : ∃ us, d.pending = some (.Recalc us)
          · obtain ⟨us, hp⟩ := hRp
            right
            exact ⟨by rw [hcy], Or.inr ⟨us, hp⟩⟩
          · left
            refine getConf_eq_of_concepts n (confirm_pending_concepts d ?_ ?_)
            · intro p hp; exact hCp ⟨p, hp⟩
            · intro us hp; exact hRp ⟨us, hp⟩
      · rw [Bool.not_eq_true] at hy
        simp only [hy, Bool.false_eq_true, if_false]
        by_cases hn : (c == 'n' && d.pending.isSome) = true
        · simp only [hn, if_true]
          left
          exact getConf_eq_of_concepts n (reject_pending_concepts d)
        · rw [Bool.not_eq_true] at hn
          simp only [hn, Bool.false_eq_true, if_false]
          left
          trivial

/-! ## Confidence engine: the per-concept update rule (C2) and the
fixed-point property (C4) -/

/-- The per-concept body of `calculate_confidence_updates`. -/
def updFor (db : Database) (c : Concept) : Option ConfidenceUpdate :=
  if Database.tolEps < |db.newConfidence c.name - c.confidence| then
    some { concept := c.name, old := c.confidence, new := db.newConfidence c.name }
  else none

theorem calc_eq_filterMap (db : Database) :
    db.calculate_confidence_updates = (db.list_concepts 10000).filterMap (updFor db) :=
  rfl

/-- Unique concept names survive the sort and the `LIMIT`. -/
theorem names_nodup_list_concepts {db : Database}
    (hn : (db.concepts.map Concept.name).Nodup) (k : Nat) :
    ((db.list_concepts k).map Concept.name).Nodup := by
  unfold Database.list_concepts
  rw [List.map_take]
  refine List.Sublist.nodup (List.take_sublist _ _) ?_
  exact (((sortBy_perm (idDesc Concept.id) db.concepts).map Concept.name).nodup_iff).mpr hn

theorem map_filterMap_sublist {f : α → Option β} {g : β → γ} {h : α → γ}
    (hfg : ∀ a b, f a = some b → g b = h a) :
    ∀ l : List α, List.Sublist ((l.filterMap f).map g) (l.map h) := by
  intro l
  induction l with
  | nil => simp
  | cons a l ih =>
      rw [List.filterMap_cons]
      cases hfa : f a with
      | none => exact List.Sublist.cons (h a) ih
      | some b =>
          rw [List.map_cons, List.map_cons, hfg a b hfa]
          exact List.Sublist.cons₂ (h a) ih

theorem calc_names_sublist (db : Database) :
    List.Sublist (db.calculate_confidence_updates.map ConfidenceUpdate.concept)
      ((db.list_concepts 10000).map Concept.name) := by
  rw [calc_eq_filterMap]
  refine map_filterMap_sublist ?_ _
  intro c u hu
  unfold updFor at hu
  split at hu
  · injection hu with hu
    rw [← hu]
  · cases hu

/-- C2 (amended): for every concept among the 10,000 most recently created
(`ORDER BY id DESC LIMIT 10000`), the recalculation either returns an
update carrying exactly the rule value `newConfidence` (when it moves the
confidence by more than the tolerance) or returns no update for that
concept (when it does not). -/
theorem C2_update_rule (db : Database)
    (hn : (db.concepts.map Concept.name).Nodup) :
    ∀ c ∈ db.list_concepts 10000,
      (Database.tolEps < |db.newConfidence c.name - c.confidence| ∧
        ({ concept := c.name, old := c.confidence, new := db.newConfidence c.name } :
          ConfidenceUpdate) ∈ db.calculate_confidence_updates) ∨
      (|db.newConfidence c.name - c.confidence| ≤ Database.tolEps ∧
        ∀ u ∈ db.calculate_confidence_updates, u.concept ≠ c.name) := by
  intro c hc
  by_cases hb : Database.tolEps < |db.newConfidence c.name - c.confidence|
  · left
    refine ⟨hb, ?_⟩
    rw [calc_eq_filterMap]
    refine List.mem_filterMap.mpr ⟨c, hc, ?_⟩
    unfold updFor
    rw [if_pos hb]
  · right
    refine ⟨le_of_not_lt hb, ?_⟩
    intro u hu hname
    rw [calc_eq_filterMap] at hu
    obtain ⟨c', hc', hfc'⟩ := List.mem_filterMap.mp hu
    unfold updFor at hfc'
    split at hfc'
    next hlt =>
      injection hfc' with hfc'
      have hcname : c'.name = c.name := by rw [← hfc'] at hname; exact hname
      have hNodup := names_nodup_list_concepts hn 10000
      have hcc : c' = c :=
        List.inj_on_of_nodup_map hNodup hc' hc hcname
      subst hcc
      exact hb hlt
    next hlt => cases hfc'

theorem C2_update_rule_witness :
    ((dbJwt.concepts.map Concept.name).Nodup) ∧
    (⟨1, "jwt", "token", 3/10, "t"⟩ : Concept) ∈ dbJwt.list_concepts 10000 ∧
    dbJwt.newConfidence "jwt" = 13/20 ∧
    ({ concept := "jwt", old := 3/10, new := dbJwt.newConfidence "jwt" } :
      ConfidenceUpdate) ∈ dbJwt.calculate_confidence_updates := by
  refine ⟨by with_unfolding_all decide, by with_unfolding_all decide,
    by with_unfolding_all decide, ?_⟩
  have h := C2_update_rule dbJwt (by with_unfolding_all decide)
    ⟨1, "jwt", "token", 3/10, "t"⟩ (by with_unfolding_all decide)
  rcases h with ⟨_, hmem⟩ | ⟨hle, _⟩
  · exact hmem
  · exact absurd hle (by with_unfolding_all decide)

/-! The `LIMIT 10000` in `list_concepts` bounds the recalculation: with
10,001 concepts the one with the smallest id is never examined. -/

def digitChar (d : Nat) : Char := Char.ofNat (48 + d)

theorem digitChar_toNat {d : Nat} (h : d < 10) : (digitChar d).toNat = 48 + d := by
  interval_cases d <;> decide

theorem digitChar_inj {a b : Nat} (ha : a < 10) (hb : b < 10)
    (h : digitChar a = digitChar b) : a = b := by
  have h2 := congrArg Char.toNat h
  rw [digitChar_toNat ha, digitChar_toNat hb] at h2
  omega

/-- An injective, all-lowercase, fixed-width concept-name scheme used to
build large test stores. -/
def nm5 (i : Nat) : String :=
  String.mk ['c', digitChar (i / 10000 % 10), digitChar (i / 1000 % 10),
    digitChar (i / 100 % 10), digitChar (i / 10 % 10), digitChar (i % 10)]

theorem nm5_inj {i j : Nat} (hi : i < 100000) (hj : j < 100000)
    (h : nm5 i = nm5 j) : i = j := by
  unfold nm5 at h
  have h' := congrArg String.data h
  simp only [List.cons.injEq, and_true] at h'
  obtain ⟨-, h1, h2, h3, h4, h5⟩ := h'
  have e1 := digitChar_inj (Nat.mod_lt _ (by norm_num)) (Nat.mod_lt _ (by norm_num)) h1
  have e2 := digitChar_inj (Nat.mod_lt _ (by norm_num)) (Nat.mod_lt _ (by norm_num)) h2
  have e3 := digitChar_inj (Nat.mod_lt _ (by norm_num)) (Nat.mod_lt _ (by norm_num)) h3
  have e4 := digitChar_inj (Nat.mod_lt _ (by norm_num)) (Nat.mod_lt _ (by norm_num)) h4
  have e5 := digitChar_inj (Nat.mod_lt _ (by norm_num)) (Nat.mod_lt _ (by norm_num)) h5
  omega

def mkC (i : Nat) : Concept :=
  ⟨i, nm5 i, "d", if i = 0 then 9/10 else 3/10, "t"⟩

/-- A store holding only concepts (every other table empty). -/
def onlyConcepts (cs : List Concept) : Database := ⟨cs, [], [], [], [], [], [], []⟩

theorem onlyConcepts_concepts (cs : List Concept) :
    (onlyConcepts cs).concepts = cs := rfl

theorem onlyConcepts_events (cs : List Concept) :
    (onlyConcepts cs).concept_confidence_events = [] := rfl

theorem onlyConcepts_evidence (cs : List Concept) :
    (onlyConcepts cs).evidence = [] := rfl

/-- 10,001 concepts with descending ids `10000, …, 0`; the id-0 concept
sits at confidence 0.9 while its rule value is 0.3. -/
def bigConcepts : List Concept := (List.range 10001).map (fun k => mkC (10000 - k))

def bigDb : Database := onlyConcepts bigConcepts

theorem bigDb_concepts_eq : bigDb.concepts = bigConcepts :=
  onlyConcepts_concepts bigConcepts

theorem newConfidence_of_empty (db : Database) (x : String)
    (he : db.concept_confidence_events = []) (hv : db.evidence = []) :
    db.newConfidence x = 3/10 := by
  unfold Database.newConfidence Database.eventCount Database.avgTrustFor
  rw [he, hv]
  simp only [List.filter_nil, List.length_nil, List.isEmpty_nil, if_true,
    Nat.cast_zero]
  unfold Database.clamp01
  norm_num

theorem bigConcepts_pairwise :
    bigConcepts.Pairwise (fun a b =>
      idDesc Concept.id a b = true ∧ idDesc Concept.id b a = false) := by
  unfold bigConcepts
  rw [List.pairwise_map, List.pairwise_iff_getElem]
  intro a b ha hb hab
  rw [List.length_range] at ha hb
  simp only [List.getElem_range]
  unfold idDesc mkC
  constructor
  · simp only [decide_eq_true_eq]
    omega
  · simp only [decide_eq_false_iff_not]
    omega

theorem bigConcepts_take :
    bigConcepts.take 10000 = (List.range 10000).map (fun k => mkC (10000 - k)) := by
  unfold bigConcepts
  rw [← List.map_take]
  have htake : (List.range 10001).take 10000 = List.range 10000 := by
    rw [show (10001 : Nat) = 10000 + 1 from rfl, List.range_succ]
    have hlen : (List.range 10000).length = 10000 := List.length_range 10000
    nth_rewrite 1 [← hlen]
    rw [List.take_left]
  rw [htake]

theorem bigDb_calc : bigDb.calculate_confidence_updates = [] := by
  rw [calc_eq_filterMap, List.filterMap_eq_nil_iff]
  intro c hc
  unfold Database.list_concepts at hc
  rw [bigDb_concepts_eq, sortBy_eq_self_of_pairwise bigConcepts_pairwise,
    bigConcepts_take] at hc
  obtain ⟨k, hk, rfl⟩ := List.mem_map.mp hc
  rw [List.mem_range] at hk
  unfold updFor
  rw [newConfidence_of_empty bigDb _ (onlyConcepts_events bigConcepts)
    (onlyConcepts_evidence bigConcepts)]
  have hconf : (mkC (10000 - k)).confidence = 3/10 := by
    unfold mkC
    simp only []
    rw [if_neg (show ¬ (10000 - k = 0) by omega)]
  rw [hconf, if_neg (by norm_num [Database.tolEps])]

/-- C2, as stated: every concept either has its rule value returned as an
update or already sits within the tolerance of its rule value. -/
def ClaimC2 : Prop :=
  ∀ db : Database, (db.concepts.map Concept.name).Nodup →
    ∀ c ∈ db.concepts,
      (∃ u ∈ db.calculate_confidence_updates,
        u.concept = c.name ∧ u.new = db.newConfidence c.name) ∨
      |db.newConfidence c.name - c.confidence| ≤ Database.tolEps

theorem bigDb_nodup : (bigDb.concepts.map Concept.name).Nodup := by
  rw [bigDb_concepts_eq]
  unfold bigConcepts
  rw [List.map_map]
  refine (List.nodup_map_iff_inj_on (List.nodup_range _)).mpr ?_
  intro a ha b hb hfab
  rw [List.mem_range] at ha hb
  have hnm : nm5 (10000 - a) = nm5 (10000 - b) := hfab
  have := nm5_inj (by omega) (by omega) hnm
  omega

/-- C2 counterexample: in a store of 10,001 concepts, the concept with the
smallest id (confidence 0.9, rule value 0.3) is beyond `LIMIT 10000` of
`list_concepts`, so `calculate_confidence_updates` returns no update for
it even though it is far outside the tolerance. -/
theorem C2_counterexample : ¬ ClaimC2 := by
  intro h
  have hmem : mkC 0 ∈ bigDb.concepts := by
    rw [bigDb_concepts_eq]
    unfold bigConcepts
    refine List.mem_map.mpr ⟨10000, ?_, ?_⟩
    · rw [List.mem_range]; omega
    · rfl
  have h0 := h bigDb bigDb_nodup (mkC 0) hmem
  rcases h0 with ⟨u, hu, -⟩ | hle
  · rw [bigDb_calc] at hu
    exact absurd hu (List.not_mem_nil u)
  · rw [newConfidence_of_empty bigDb _ (onlyConcepts_events bigConcepts)
      (onlyConcepts_evidence bigConcepts)] at hle
    have hc0 : (mkC 0).confidence = 9/10 := by
      unfold mkC
      simp
    rw [hc0] at hle
    have habs : |(3:ℚ)/10 - 9/10| = 3/5 := by
      rw [abs_sub_comm, abs_of_nonneg] <;> norm_num
    rw [habs] at hle
    revert hle
    norm_num [Database.tolEps]

/-! ## C4: applying the computed updates reaches a fixed point -/

/-- The effect of a full update list on one concept row. -/
def applyAll (us : List ConfidenceUpdate) (c : Concept) : Concept :=
  match us.find? (fun u => u.concept == c.name) with
  | some u => { c with confidence := u.new }
  | none => c

theorem applyAll_name (us : List ConfidenceUpdate) (c : Concept) :
    (applyAll us c).name = c.name := by
  unfold applyAll
  cases us.find? (fun u => u.concept == c.name) <;> rfl

theorem applyAll_id (us : List ConfidenceUpdate) (c : Concept) :
    (applyAll us c).id = c.id := by
  unfold applyAll
  cases us.find? (fun u => u.concept == c.name) <;> rfl

/-- Sequentially running `applyOne` for a duplicate-free update list acts
row-wise as `applyAll`. -/
theorem foldl_applyOne_eq_map (us : List ConfidenceUpdate)
    (hnd : (us.map ConfidenceUpdate.concept).Nodup) :
    ∀ cs : List Concept,
      us.foldl (fun cs u => Database.applyOne u cs) cs = cs.map (applyAll us) := by
  induction us with
  | nil =>
      intro cs
      simp only [List.foldl_nil]
      have hmapid : List.map (applyAll []) cs = List.map id cs :=
        List.map_congr_left (fun c _ => by unfold applyAll; rfl)
      rw [hmapid, List.map_id]
  | cons u us ih =>
      intro cs
      rw [List.map_cons, List.nodup_cons] at hnd
      rw [List.foldl_cons, ih hnd.2]
      unfold Database.applyOne
      rw [List.map_map]
      refine List.map_congr_left ?_
      intro c _
      show applyAll us (if c.name == u.concept then
        { c with confidence := u.new } else c) = applyAll (u :: us) c
      by_cases hcu : c.name = u.concept
      · rw [if_pos (by simp [hcu])]
        unfold applyAll
        have hfind : us.find?
            (fun v => v.concept == ({ c with confidence := u.new } : Concept).name) =
            none := by
          rw [List.find?_eq_none]
          intro v hv
          simp only [beq_iff_eq]
          intro hvc
          exact hnd.1 (hcu ▸ hvc ▸ List.mem_map_of_mem ConfidenceUpdate.concept hv)
        rw [hfind]
        have hcons : List.find? (fun v => v.concept == c.name) (u :: us) = some u := by
          rw [List.find?_cons_of_pos]
          simp [hcu]
        rw [hcons]
      · rw [if_neg (by simp [hcu])]
        unfold applyAll
        have hcons : List.find? (fun v => v.concept == c.name) (u :: us) =
            List.find? (fun v => v.concept == c.name) us := by
          rw [List.find?_cons_of_neg]
          simp only [beq_iff_eq]
          exact fun he => hcu he.symm
        rw [hcons]

theorem newConfidence_applyUpdates (db : Database) (us : List ConfidenceUpdate)
    (x : String) :
    (db.apply_confidence_updates us).newConfidence x = db.newConfidence x := rfl

/-- C4: running `apply_confidence_updates` on the freshly computed update
list and immediately recomputing yields an empty update list — the update
is a fixed point (a concept is included only when the rule value moves its
confidence by more than the tolerance). -/
theorem C4_fixed_point (db : Database)
    (hn : (db.concepts.map Concept.name).Nodup) :
    (db.apply_confidence_updates
      db.calculate_confidence_updates).calculate_confidence_updates = [] := by
  set us := db.calculate_confidence_updates with hus
  have hndus : (us.map ConfidenceUpdate.concept).Nodup :=
    (calc_names_sublist db).nodup (names_nodup_list_concepts hn 10000)
  have hconcepts : (db.apply_confidence_updates us).concepts =
      db.concepts.map (applyAll us) := by
    show us.foldl (fun cs u => Database.applyOne u cs) db.concepts = _
    exact foldl_applyOne_eq_map us hndus db.concepts
  have hcompat : ∀ a b : Concept,
      idDesc Concept.id (applyAll us a) (applyAll us b) = idDesc Concept.id a b := by
    intro a b
    unfold idDesc
    rw [applyAll_id, applyAll_id]
  rw [calc_eq_filterMap, List.filterMap_eq_nil_iff]
  intro c' hc'
  unfold Database.list_concepts at hc'
  rw [hconcepts, sortBy_map hcompat, ← List.map_take] at hc'
  obtain ⟨c, hcL, rfl⟩ := List.mem_map.mp hc'
  have hcL' : c ∈ db.list_concepts 10000 := hcL
  unfold updFor
  rw [applyAll_name, newConfidence_applyUpdates]
  cases hf : us.find? (fun u => u.concept == c.name) with
  | some u =>
      have hconfval : (applyAll us c).confidence = u.new := by
        unfold applyAll
        rw [hf]
      have hu : u ∈ us := List.mem_of_find?_eq_some hf
      have hpred : u.concept = c.name := by
        have := List.find?_some hf
        simpa using this
      rw [hus, calc_eq_filterMap] at hu
      obtain ⟨c₀, hc₀, hf₀⟩ := List.mem_filterMap.mp hu
      unfold updFor at hf₀
      split at hf₀
      next hlt =>
        injection hf₀ with hf₀
        have hval : u.new = db.newConfidence c₀.name := by rw [← hf₀]
        have hname : u.concept = c₀.name := by rw [← hf₀]
        rw [hconfval, hval, ← hname, hpred]
        rw [sub_self, abs_zero, if_neg]
        unfold Database.tolEps
        norm_num
      next => cases hf₀
  | none =>
      have happ : applyAll us c = c := by
        unfold applyAll
        rw [hf]
      have hnone : updFor db c = none := by
        cases hfc : updFor db c with
        | none => rfl
        | some u₀ =>
            have hmem₀ : u₀ ∈ us := by
              rw [hus, calc_eq_filterMap]
              exact List.mem_filterMap.mpr ⟨c, hcL', hfc⟩
            have hn₀ : u₀.concept = c.name := by
              unfold updFor at hfc
              split at hfc
              · injection hfc with hfc
                rw [← hfc]
              · cases hfc
            have := List.find?_eq_none.mp hf u₀ hmem₀
            simp [hn₀] at this
      unfold updFor at hnone
      split at hnone
      · cases hnone
      next hcond =>
        rw [happ, if_neg hcond]

theorem C4_fixed_point_witness :
    ((dbJwt.concepts.map Concept.name).Nodup) ∧
    (dbJwt.apply_confidence_updates
      dbJwt.calculate_confidence_updates).calculate_confidence_updates = [] :=
  ⟨by with_unfolding_all decide, C4_fixed_point dbJwt (by with_unfolding_all decide)⟩

/-! ## C10: confirming an evidence proposal -/

/-- The update rule's value before the `[0,1]` clamp. -/
def preScore (db : Database) (x : String) : ℚ :=
  3/10 + (15/100) * (db.eventCount x ("confirm_claim") : ℚ)
    - (12/100) * (db.eventCount x ("reject_claim") : ℚ)
    + (8/100) * (db.eventCount x ("episode_ok") : ℚ)
    - (8/100) * (db.eventCount x ("episode_fail") : ℚ)
    + (25/100) * (db.avgTrustFor x - 1/2)

theorem newConfidence_eq_clamp (db : Database) (x : String) :
    db.newConfidence x = Database.clamp01 (preScore db x) := rfl

theorem clamp01_mono {a b : ℚ} (h : a ≤ b) :
    Database.clamp01 a ≤ Database.clamp01 b := by
  unfold Database.clamp01
  split_ifs <;> linarith

/-- Event counting on a raw event list. -/
def countEv (l : List ConfidenceEvent) (x t : String) : Nat :=
  (l.filter (fun e => e.concept_name == x && e.event_type == t)).length

theorem eventCount_eq (db : Database) (x t : String) :
    db.eventCount x t = countEv db.concept_confidence_events x t := rfl

theorem countEv_append_match (l : List ConfidenceEvent) (x : String) :
    countEv (l ++ [⟨x, "confirm_claim", now⟩]) x ("confirm_claim") =
      countEv l x ("confirm_claim") + 1 := by
  unfold countEv
  rw [List.filter_append, List.length_append]
  simp [List.filter]

theorem countEv_append_other (l : List ConfidenceEvent) (x t : String)
    (hne : ¬ t = "confirm_claim") :
    countEv (l ++ [⟨x, "confirm_claim", now⟩]) x t = countEv l x t := by
  have hb : (("confirm_claim" == t)) = false := by
    rw [beq_eq_false_iff_ne]
    exact fun he => hne he.symm
  unfold countEv
  rw [List.filter_append, List.length_append]
  simp [List.filter, hb]

/-- Averaging on a raw evidence list. -/
def avgOf (l : List Evidence) (x : String) : ℚ :=
  if (l.filter (fun e => e.concept_name == x)).isEmpty then 1/2
  else ((l.filter (fun e => e.concept_name == x)).map (·.trust)).sum /
    (l.filter (fun e => e.concept_name == x)).length

theorem avgTrustFor_eq (db : Database) (x : String) :
    db.avgTrustFor x = avgOf db.evidence x := rfl

theorem sum_trust_bounds (l : List Evidence)
    (h : ∀ e ∈ l, 0 ≤ e.trust ∧ e.trust ≤ 1) :
    0 ≤ (l.map (·.trust)).sum ∧ (l.map (·.trust)).sum ≤ l.length := by
  induction l with
  | nil => simp
  | cons e l ih =>
      have he := h e (List.mem_cons_self e l)
      have ihl := ih (fun e' he' => h e' (List.mem_cons_of_mem e he'))
      rw [List.map_cons, List.sum_cons, List.length_cons]
      push_cast
      constructor <;> linarith [ihl.1, ihl.2, he.1, he.2]

theorem avg_shift_bound (s nq : ℚ) (hn : 1 ≤ nq) (hs0 : 0 ≤ s) (hsn : s ≤ nq) :
    (s + 1/2) / (nq + 1) - s / nq ≥ -(1/4) := by
  have hn0 : (0:ℚ) < nq := by linarith
  have hn1 : (0:ℚ) < nq + 1 := by linarith
  have h2 : (s + 1/2) / (nq + 1) - s / nq = (nq/2 - s) / (nq * (nq + 1)) := by
    field_simp
    ring
  rw [h2, ge_iff_le, le_div_iff₀ (by positivity)]
  nlinarith [mul_nonneg (sub_nonneg.mpr hn) hn0.le]

theorem avgOf_append_half (l : List Evidence) (x : String) (ev : Evidence)
    (hc : ev.concept_name = x) (ht2 : ev.trust = 1/2)
    (ht : ∀ e ∈ l, 0 ≤ e.trust ∧ e.trust ≤ 1) :
    avgOf (l ++ [ev]) x - avgOf l x ≥ -(1/4) := by
  unfold avgOf
  have hfa : (l ++ [ev]).filter (fun e => e.concept_name == x) =
      l.filter (fun e => e.concept_name == x) ++ [ev] := by
    rw [List.filter_append]
    congr 1
    simp [List.filter, hc]
  rw [hfa]
  set fl := l.filter (fun e => e.concept_name == x) with hfl
  have htfl : ∀ e ∈ fl, 0 ≤ e.trust ∧ e.trust ≤ 1 := by
    intro e he
    exact ht e (List.mem_of_mem_filter (hfl ▸ he))
  by_cases hflc : fl = []
  · rw [hflc]
    norm_num [ht2]
  · have hne : ¬ ((fl ++ [ev]).isEmpty = true) := by
      simp
    have hne2 : ¬ (fl.isEmpty = true) := by
      simp [hflc]
    rw [if_neg hne, if_neg hne2]
    rw [List.map_append, List.sum_append, List.length_append]
    simp only [List.map_cons, List.map_nil, List.sum_cons, List.sum_nil, ht2,
      List.length_cons, List.length_nil, add_zero]
    have hsum := sum_trust_bounds fl htfl
    have hlp : 1 ≤ fl.length := List.length_pos.mpr hflc
    have hlen1 : (1:ℚ) ≤ (fl.length : ℚ) := by exact_mod_cast hlp
    push_cast
    have hb := avg_shift_bound ((fl.map (fun e => e.trust)).sum) (fl.length : ℚ)
      hlen1 hsum.1 hsum.2
    linarith [hb]

/-- C10 (amended): confirming a pending evidence proposal stores the
evidence row (trust 0.50) and appends a `confirm_claim` event for the
referenced concept; consequently the concept's unclamped rule score
strictly increases (the +0.15 confirm term outweighs any shift of the
trust average), and the clamped recalculated confidence never decreases —
though it can stay equal when the `[0,1]` clamp binds. -/
theorem C10_evidence_confirm (d : Dialog) (concept content : String)
    (src dm : Option String)
    (hp : d.pending = some (.Evidence concept content src dm))
    (ht : ∀ e ∈ d.db.evidence, 0 ≤ e.trust ∧ e.trust ≤ 1) :
    (d.confirm_pending).db.evidence = d.db.evidence ++
      [⟨nextId (d.db.evidence.map Evidence.id), concept, content, src, dm, 1/2, now⟩] ∧
    (d.confirm_pending).db.concept_confidence_events =
      d.db.concept_confidence_events ++ [⟨concept, "confirm_claim", now⟩] ∧
    preScore d.db concept < preScore (d.confirm_pending).db concept ∧
    d.db.newConfidence concept ≤ (d.confirm_pending).db.newConfidence concept := by
  have hdb : (d.confirm_pending).db =
      ((d.db.add_evidence concept content src dm).1).record_confidence_event
        concept ("confirm_claim") := by
    unfold Dialog.confirm_pending
    rw [hp, pushAll_db]
  rw [hdb]
  refine ⟨rfl, rfl, ?_, ?_⟩
  · -- strict increase of the unclamped score
    unfold preScore
    rw [eventCount_eq, eventCount_eq, eventCount_eq, eventCount_eq,
      eventCount_eq, eventCount_eq, eventCount_eq, eventCount_eq,
      avgTrustFor_eq, avgTrustFor_eq]
    have hev : (((d.db.add_evidence concept content src dm).1).record_confidence_event
        concept ("confirm_claim")).concept_confidence_events =
        d.db.concept_confidence_events ++ [⟨concept, "confirm_claim", now⟩] := rfl
    have hvd : (((d.db.add_evidence concept content src dm).1).record_confidence_event
        concept ("confirm_claim")).evidence =
        d.db.evidence ++
          [⟨nextId (d.db.evidence.map Evidence.id), concept, content, src, dm, 1/2, now⟩] := rfl
    rw [hev, hvd]
    rw [countEv_append_match, countEv_append_other _ _ _ (by decide),
      countEv_append_other _ _ _ (by decide), countEv_append_other _ _ _ (by decide)]
    have hshift := avgOf_append_half d.db.evidence concept
      ⟨nextId (d.db.evidence.map Evidence.id), concept, content, src, dm, 1/2, now⟩
      rfl rfl ht
    push_cast
    linarith [hshift]
  · -- the clamped confidence cannot decrease
    rw [newConfidence_eq_clamp, newConfidence_eq_clamp]
    apply clamp01_mono
    -- reuse the strict inequality
    unfold preScore
    rw [eventCount_eq, eventCount_eq, eventCount_eq, eventCount_eq,
      eventCount_eq, eventCount_eq, eventCount_eq, eventCount_eq,
      avgTrustFor_eq, avgTrustFor_eq]
    have hev : (((d.db.add_evidence concept content src dm).1).record_confidence_event
        concept ("confirm_claim")).concept_confidence_events =
        d.db.concept_confidence_events ++ [⟨concept, "confirm_claim", now⟩] := rfl
    have hvd : (((d.db.add_evidence concept content src dm).1).record_confidence_event
        concept ("confirm_claim")).evidence =
        d.db.evidence ++
          [⟨nextId (d.db.evidence.map Evidence.id), concept, content, src, dm, 1/2, now⟩] := rfl
    rw [hev, hvd]
    rw [countEv_append_match, countEv_append_other _ _ _ (by decide),
      countEv_append_other _ _ _ (by decide), countEv_append_other _ _ _ (by decide)]
    have hshift := avgOf_append_half d.db.evidence concept
      ⟨nextId (d.db.evidence.map Evidence.id), concept, content, src, dm, 1/2, now⟩
      rfl rfl ht
    push_cast
    linarith [hshift]

def dEvW : Dialog :=
  ⟨"", [], dbJwt, some (.Evidence "jwt" "spec ref" none none), false⟩

theorem C10_evidence_confirm_witness :
    dEvW.pending = some (.Evidence "jwt" "spec ref" none none) ∧
    (∀ e ∈ dEvW.db.evidence, 0 ≤ e.trust ∧ e.trust ≤ 1) ∧
    ((dEvW.confirm_pending).db.evidence = dEvW.db.evidence ++
      [⟨nextId (dEvW.db.evidence.map Evidence.id), "jwt", "spec ref", none, none, 1/2, now⟩] ∧
     (dEvW.confirm_pending).db.concept_confidence_events =
       dEvW.db.concept_confidence_events ++ [⟨"jwt", "confirm_claim", now⟩] ∧
     preScore dEvW.db "jwt" < preScore (dEvW.confirm_pending).db "jwt" ∧
     dEvW.db.newConfidence "jwt" ≤ (dEvW.confirm_pending).db.newConfidence "jwt") :=
  ⟨by with_unfolding_all decide, by with_unfolding_all decide,
   C10_evidence_confirm dEvW "jwt" "spec ref" none none
     (by with_unfolding_all decide) (by with_unfolding_all decide)⟩

/-- C10, as stated: every confirmed evidence attachment strictly increases
the referenced concept's subsequently recalculated confidence. -/
def ClaimC10 : Prop :=
  ∀ (d : Dialog) (concept content : String) (src dm : Option String),
    d.pending = some (.Evidence concept content src dm) →
    (∀ e ∈ d.db.evidence, 0 ≤ e.trust ∧ e.trust ≤ 1) →
    (d.confirm_pending).db.concept_confidence_events =
      d.db.concept_confidence_events ++ [⟨concept, "confirm_claim", now⟩] ∧
    d.db.newConfidence concept < (d.confirm_pending).db.newConfidence concept

def dCap : Dialog :=
  ⟨"", [], ⟨[⟨1, "k", "d", 1, "t"⟩], [], [], [], [],
    [⟨"k", "confirm_claim", "t"⟩, ⟨"k", "confirm_claim", "t"⟩,
     ⟨"k", "confirm_claim", "t"⟩, ⟨"k", "confirm_claim", "t"⟩,
     ⟨"k", "confirm_claim", "t"⟩], [], []⟩,
   some (.Evidence "k" "x" none none), false⟩

/-- C10 counterexample: at five prior `confirm_claim` events the rule
value is already clamped to 1.0; confirming one more evidence row leaves
the recalculated confidence at exactly 1.0 — not an increase. -/
theorem C10_counterexample : ¬ ClaimC10 := by
  intro h
  have hh := h dCap "k" "x" none none rfl
    (by intro e he; exact absurd he (List.not_mem_nil e))
  exact absurd hh.2 (by with_unfolding_all decide)

/-! ## C9: episode tag suggestion and nested tag confirmation -/

/-- The event type picked from an episode outcome (dialog.rs tag loop). -/
def evtName (outc : String) : String :=
  if outc == "ok" then "episode_ok"
  else if outc == "fail" then "episode_fail" else "episode_note"

/-- The tag list the nested proposal will carry: the (sorted, limited to
500) stored concept names that occur verbatim in the lowercased summary. -/
def proposedTags (d : Dialog) (outcome summary : String) : List String :=
  (((d.db.add_episode outcome summary).1).list_concept_names 500).filter
    (fun n => hasSub summary.toLower.data n.data)

theorem record_event_events (db : Database) (c ty : String) :
    (db.record_confidence_event c ty).concept_confidence_events =
      db.concept_confidence_events ++ [⟨c, ty, now⟩] := rfl

theorem record_event_tags (db : Database) (c ty : String) :
    (db.record_confidence_event c ty).episode_tags = db.episode_tags := rfl

theorem add_episode_tag_events (db : Database) (i : Nat) (c : String) :
    (db.add_episode_tag i c).concept_confidence_events =
      db.concept_confidence_events := by
  unfold Database.add_episode_tag; split <;> rfl

theorem mem_add_episode_tag (db : Database) (i : Nat) (c : String)
    {x : EpisodeTag} (h : x ∈ db.episode_tags) :
    x ∈ (db.add_episode_tag i c).episode_tags := by
  unfold Database.add_episode_tag
  split
  · exact h
  · exact List.mem_append_left _ h

theorem self_mem_add_episode_tag (db : Database) (i : Nat) (c : String) :
    (⟨i, c⟩ : EpisodeTag) ∈ (db.add_episode_tag i c).episode_tags := by
  unfold Database.add_episode_tag
  split
  next hany =>
    obtain ⟨x, hx, hbeq⟩ := List.any_eq_true.mp hany
    obtain ⟨xi, xn⟩ := x
    simp only [Bool.and_eq_true, beq_iff_eq] at hbeq
    obtain ⟨h1, h2⟩ := hbeq
    subst h1; subst h2
    exact hx
  next _ =>
    exact List.mem_append_right _ (List.mem_singleton.mpr rfl)

theorem tagFold_events (eid : Nat) (outc : String) :
    ∀ (tags : List String) (db : Database),
      (tags.foldl (fun db t =>
        let evt := if outc == "ok" then "episode_ok"
          else if outc == "fail" then "episode_fail" else "episode_note"
        (db.add_episode_tag eid t).record_confidence_event t evt) db).concept_confidence_events =
      db.concept_confidence_events ++
        tags.map (fun t => (⟨t, evtName outc, now⟩ : ConfidenceEvent)) := by
  intro tags
  induction tags with
  | nil => intro db; simp
  | cons t ts ih =>
      intro db
      simp only [List.foldl_cons, ih, record_event_events, add_episode_tag_events,
        List.map_cons, evtName, List.append_assoc, List.singleton_append]

theorem tagFold_preserves_mem (eid : Nat) (outc : String) :
    ∀ (tags : List String) (db : Database) (x : EpisodeTag),
      x ∈ db.episode_tags →
      x ∈ (tags.foldl (fun db t =>
        let evt := if outc == "ok" then "episode_ok"
          else if outc == "fail" then "episode_fail" else "episode_note"
        (db.add_episode_tag eid t).record_confidence_event t evt) db).episode_tags := by
  intro tags
  induction tags with
  | nil => intro db x h; exact h
  | cons t ts ih =>
      intro db x h
      rw [List.foldl_cons]
      exact ih _ x (by
        show x ∈ ((db.add_episode_tag eid t).record_confidence_event t _).episode_tags
        rw [record_event_tags]
        exact mem_add_episode_tag db eid t h)

theorem tagFold_mem (eid : Nat) (outc : String) :
    ∀ (tags : List String) (db : Database) (t : String), t ∈ tags →
      (⟨eid, t⟩ : EpisodeTag) ∈ (tags.foldl (fun db t =>
        let evt := if outc == "ok" then "episode_ok"
          else if outc == "fail" then "episode_fail" else "episode_note"
        (db.add_episode_tag eid t).record_confidence_event t evt) db).episode_tags := by
  intro tags
  induction tags with
  | nil => intro db t h; exact absurd h (List.not_mem_nil t)
  | cons hd ts ih =>
      intro db t h
      rw [List.foldl_cons]
      rcases List.mem_cons.mp h with h1 | h1
      · subst h1
        apply tagFold_preserves_mem
        show (⟨eid, t⟩ : EpisodeTag) ∈
          ((db.add_episode_tag eid t).record_confidence_event t _).episode_tags
        rw [record_event_tags]
        exact self_mem_add_episode_tag db eid t
      · exact ih _ t h1

theorem confirm_pending_tagEpisode (d : Dialog) (eid : Nat) (tags : List String)
    (outc : String) (hp : d.pending = some (.TagEpisode eid tags outc)) :
    d.confirm_pending = (
      let d0 : Dialog := { d with pending := none }
      let db1 := tags.foldl (fun db t =>
        let evt := if outc == "ok" then "episode_ok"
          else if outc == "fail" then "episode_fail" else "episode_note"
        (db.add_episode_tag eid t).record_confidence_event t evt) d0.db
      Dialog.push { d0 with db := db1 }
        ("MOTHER: Tags applied to episode #" ++ toString eid ++ ".")) := by
  unfold Dialog.confirm_pending
  rw [hp]

/-- C9 (amended): confirming a pending episode commits the episode, and the
nested tag proposal carries exactly the stored concept names — among the
alphabetically first 500, matched by their stored spelling against the
lowercased summary — deduplicated; it is raised only when at least one name
matches.  Confirming the nested proposal attaches every proposed tag to the
new episode and appends, per tag, one ConfidenceEvent typed by the
episode's outcome. -/
theorem C9_tag_suggestion (d : Dialog) (outcome summary : String)
    (hp : d.pending = some (.Episode outcome summary))
    (hlen : d.db.concepts.length ≤ 500)
    (hnd : (d.db.concepts.map Concept.name).Nodup) :
    (d.confirm_pending).db.episodes = d.db.episodes ++
      [⟨nextId (d.db.episodes.map Episode.id), now, outcome, summary⟩] ∧
    (∀ name : String, name ∈ proposedTags d outcome summary ↔
      (name ∈ d.db.concepts.map Concept.name ∧
        hasSub summary.toLower.data name.data = true)) ∧
    (proposedTags d outcome summary).Nodup ∧
    (proposedTags d outcome summary = [] → (d.confirm_pending).pending = none) ∧
    (¬ proposedTags d outcome summary = [] →
      (d.confirm_pending).pending = some (.TagEpisode
        (d.db.add_episode outcome summary).2 (proposedTags d outcome summary) outcome) ∧
      ((d.confirm_pending).confirm_pending).db.concept_confidence_events =
        d.db.concept_confidence_events ++ (proposedTags d outcome summary).map
          (fun t => (⟨t, evtName outcome, now⟩ : ConfidenceEvent)) ∧
      ∀ t ∈ proposedTags d outcome summary,
        (⟨(d.db.add_episode outcome summary).2, t⟩ : EpisodeTag) ∈
          ((d.confirm_pending).confirm_pending).db.episode_tags) := by
  have hstate : d.confirm_pending = (
      let d0 : Dialog := { d with pending := none }
      let pr := d0.db.add_episode outcome summary
      let d1 := pushAll { d0 with db := pr.1 }
        ["MOTHER: EPISODE RECORDED [" ++ outcome ++ "] #" ++ toString pr.2 ++ " " ++ summary]
      match suggest_tags pr.1 summary with
      | some tags =>
          pushAll { d1 with pending := some (.TagEpisode pr.2 tags outcome) }
            (("MOTHER: Proposed tags for episode:" :: tags.map (fun t => "  - " ++ t)) ++
              ["Apply tags? [y]/[n]"])
      | none => d1) := by
    unfold Dialog.confirm_pending
    rw [hp]
  have hsg : suggest_tags (d.db.add_episode outcome summary).1 summary =
      if (proposedTags d outcome summary).isEmpty then none
      else some (proposedTags d outcome summary) := rfl
  have hnames : ((d.db.add_episode outcome summary).1).list_concept_names 500 =
      sortBy strAsc (d.db.concepts.map Concept.name) := by
    unfold Database.list_concept_names
    rw [add_episode_concepts]
    apply List.take_of_length_le
    rw [length_sortBy, List.length_map]
    exact hlen
  have hmem : ∀ name : String, name ∈ proposedTags d outcome summary ↔
      (name ∈ d.db.concepts.map Concept.name ∧
        hasSub summary.toLower.data name.data = true) := by
    intro name
    unfold proposedTags
    rw [hnames, List.mem_filter, mem_sortBy]
  have hdup : (proposedTags d outcome summary).Nodup := by
    unfold proposedTags
    rw [hnames]
    exact (nodup_sortBy hnd).filter _
  refine ⟨?_, hmem, hdup, ?_, ?_⟩
  · rw [hstate]
    cases hsgc : suggest_tags (d.db.add_episode outcome summary).1 summary with
    | none =>
        simp only [hsgc, pushAll_db]
        rfl
    | some tags =>
        simp only [hsgc, pushAll_db]
        rfl
  · intro hemp
    rw [hstate]
    have : suggest_tags (d.db.add_episode outcome summary).1 summary = none := by
      rw [hsg, hemp]
      rfl
    simp only [this, pushAll_pending]
  · intro hemp
    have hsome : suggest_tags (d.db.add_episode outcome summary).1 summary =
        some (proposedTags d outcome summary) := by
      rw [hsg, if_neg (by
        intro hie
        exact hemp (List.isEmpty_iff.mp hie))]
    have hpend1 : (d.confirm_pending).pending = some (.TagEpisode
        (d.db.add_episode outcome summary).2 (proposedTags d outcome summary) outcome) := by
      rw [hstate]
      simp only [hsome, pushAll_pending]
    have hdb1 : (d.confirm_pending).db = (d.db.add_episode outcome summary).1 := by
      rw [hstate]
      simp only [hsome, pushAll_db]
    have hstate2 := confirm_pending_tagEpisode (d.confirm_pending)
      (d.db.add_episode outcome summary).2 (proposedTags d outcome summary) outcome hpend1
    refine ⟨hpend1, ?_, ?_⟩
    · rw [hstate2]
      show ((proposedTags d outcome summary).foldl (fun db t =>
          let evt := if outcome == "ok" then "episode_ok"
            else if outcome == "fail" then "episode_fail" else "episode_note"
          (db.add_episode_tag (d.db.add_episode outcome summary).2 t).record_confidence_event t evt)
          (d.confirm_pending).db).concept_confidence_events =
        d.db.concept_confidence_events ++ (proposedTags d outcome summary).map
          (fun t => (⟨t, evtName outcome, now⟩ : ConfidenceEvent))
      rw [hdb1, tagFold_events]
      rfl
    · intro t ht
      rw [hstate2]
      show (⟨(d.db.add_episode outcome summary).2, t⟩ : EpisodeTag) ∈
        ((proposedTags d outcome summary).foldl (fun db t =>
          let evt := if outcome == "ok" then "episode_ok"
            else if outcome == "fail" then "episode_fail" else "episode_note"
          (db.add_episode_tag (d.db.add_episode outcome summary).2 t).record_confidence_event t evt)
          (d.confirm_pending).db).episode_tags
      rw [hdb1]
      exact tagFold_mem _ outcome _ _ t ht

def dEp : Dialog :=
  ⟨"", [], dbJwt, some (.Episode "fail" "jwt rotation failed"), false⟩

theorem C9_tag_suggestion_witness :
    dEp.pending = some (.Episode "fail" "jwt rotation failed") ∧
    dEp.db.concepts.length ≤ 500 ∧
    (dEp.db.concepts.map Concept.name).Nodup ∧
    ((dEp.confirm_pending).db.episodes = dEp.db.episodes ++
      [⟨nextId (dEp.db.episodes.map Episode.id), now, "fail", "jwt rotation failed"⟩] ∧
    (∀ name : String, name ∈ proposedTags dEp "fail" "jwt rotation failed" ↔
      (name ∈ dEp.db.concepts.map Concept.name ∧
        hasSub ("jwt rotation failed").toLower.data name.data = true)) ∧
    (proposedTags dEp "fail" "jwt rotation failed").Nodup ∧
    (proposedTags dEp "fail" "jwt rotation failed" = [] →
      (dEp.confirm_pending).pending = none) ∧
    (¬ proposedTags dEp "fail" "jwt rotation failed" = [] →
      (dEp.confirm_pending).pending = some (.TagEpisode
        (dEp.db.add_episode "fail" "jwt rotation failed").2
        (proposedTags dEp "fail" "jwt rotation failed") "fail") ∧
      ((dEp.confirm_pending).confirm_pending).db.concept_confidence_events =
        dEp.db.concept_confidence_events ++
          (proposedTags dEp "fail" "jwt rotation failed").map
            (fun t => (⟨t, evtName "fail", now⟩ : ConfidenceEvent)) ∧
      ∀ t ∈ proposedTags dEp "fail" "jwt rotation failed",
        (⟨(dEp.db.add_episode "fail" "jwt rotation failed").2, t⟩ : EpisodeTag) ∈
          ((dEp.confirm_pending).confirm_pending).db.episode_tags)) :=
  ⟨rfl, by with_unfolding_all decide, by with_unfolding_all decide,
   C9_tag_suggestion dEp "fail" "jwt rotation failed" rfl
     (by with_unfolding_all decide) (by with_unfolding_all decide)⟩

/-- C9, as stated: every concept name occurring as a case-insensitive
substring of the committed episode summary ends up in the nested tag
proposal. -/
def ClaimC9 : Prop :=
  ∀ (d : Dialog) (outcome summary name : String),
    d.pending = some (.Episode outcome summary) →
    name ∈ d.db.concepts.map Concept.name →
    hasSub summary.toLower.data name.toLower.data = true →
    ∃ eid tags, (d.confirm_pending).pending = some (.TagEpisode eid tags outcome) ∧
      name ∈ tags

def dC9 : Dialog :=
  ⟨"", [], ⟨[⟨1, "JWT", "d", 1/2, "t"⟩], [], [], [], [], [], [], []⟩,
   some (.Episode "fail" "jwt rotation failed"), false⟩

/-- C9 counterexample: only the summary is lowercased before the substring
scan; a stored name with an uppercase letter ("JWT") occurs
case-insensitively in the summary yet no tag proposal is raised at all. -/
theorem C9_counterexample : ¬ ClaimC9 := by
  intro h
  obtain ⟨eid, tags, hpend, -⟩ := h dC9 "fail" "jwt rotation failed" "JWT" rfl
    (by with_unfolding_all decide) (by with_unfolding_all decide)
  have hnone : (dC9.confirm_pending).pending = none := by with_unfolding_all decide
  rw [hnone] at hpend
  exact Option.noConfusion hpend

/-! ## C5: determinism of compute_clusters -/

/-- Two isolated concepts, no relations. -/
def cAB : List Concept :=
  [⟨1, "a", "d", 1/2, "t"⟩, ⟨2, "b", "d", 1/2, "t"⟩]

/-- C5: `compute_clusters` iterates the keys of a freshly built `HashMap`,
whose order Rust randomizes per process.  Both `["a","b"]` and `["b","a"]`
are valid enumerations of the same adjacency keys for the same concept and
relation input, yet they produce the two singleton clusters in different
orders (node counts tie, and the sort is stable), so the output is not
determined by the concept/relation input. -/
theorem C5_hash_order_dependence :
    validOrd cAB [] ["a", "b"] ∧ validOrd cAB [] ["b", "a"] ∧
    validNbr [] (fun _ => ([] : List String)) ∧
    compute_clusters ["a", "b"] (fun _ => ([] : List String)) ≠
      compute_clusters ["b", "a"] (fun _ => ([] : List String)) := by
  have hks : keySet cAB [] = ["a", "b"] := by with_unfolding_all decide
  refine ⟨⟨by decide, ?_⟩, ⟨by decide, ?_⟩, ?_, ?_⟩
  · intro n
    rw [hks]
  · intro n
    rw [hks]
    simp only [List.mem_cons, List.not_mem_nil, or_false]
    tauto
  · intro n
    refine ⟨List.nodup_nil, fun m => ?_⟩
    simp [isNeighbor]
  · have e0a : dfsLoop (fun _ => ([] : List String)) [] ["b"] ["a"] = (["a"], ["b"]) := by
      rw [dfsLoop.eq_def]
    have e1a : dfsLoop (fun _ => ([] : List String)) ["a"] ["b"] [] = (["a"], ["b"]) := by
      rw [dfsLoop.eq_def]
      exact e0a
    have e0b : dfsLoop (fun _ => ([] : List String)) [] [] ["b"] = (["b"], []) := by
      rw [dfsLoop.eq_def]
    have e1b : dfsLoop (fun _ => ([] : List String)) ["b"] [] [] = (["b"], []) := by
      rw [dfsLoop.eq_def]
      exact e0b
    have e0c : dfsLoop (fun _ => ([] : List String)) [] ["a"] ["b"] = (["b"], ["a"]) := by
      rw [dfsLoop.eq_def]
    have e1c : dfsLoop (fun _ => ([] : List String)) ["b"] ["a"] [] = (["b"], ["a"]) := by
      rw [dfsLoop.eq_def]
      exact e0c
    have e0d : dfsLoop (fun _ => ([] : List String)) [] [] ["a"] = (["a"], []) := by
      rw [dfsLoop.eq_def]
    have e1d : dfsLoop (fun _ => ([] : List String)) ["a"] [] [] = (["a"], []) := by
      rw [dfsLoop.eq_def]
      exact e0d
    have c1 : clustersLoop (fun _ => ([] : List String)) ["a", "b"] ["a", "b"] =
        [["a"], ["b"]] := by
      have hs1 : clustersLoop (fun _ => ([] : List String)) ["a", "b"] ["a", "b"] =
          (dfsLoop (fun _ => ([] : List String)) ["a"] ["b"] []).1 ::
            clustersLoop (fun _ => ([] : List String)) ["b"]
              (dfsLoop (fun _ => ([] : List String)) ["a"] ["b"] []).2 := rfl
      rw [hs1, e1a]
      have hs2 : clustersLoop (fun _ => ([] : List String)) ["b"] ["b"] =
          (dfsLoop (fun _ => ([] : List String)) ["b"] [] []).1 ::
            clustersLoop (fun _ => ([] : List String)) []
              (dfsLoop (fun _ => ([] : List String)) ["b"] [] []).2 := rfl
      rw [hs2, e1b]
      rfl
    have c2 : clustersLoop (fun _ => ([] : List String)) ["b", "a"] ["b", "a"] =
        [["b"], ["a"]] := by
      have hs1 : clustersLoop (fun _ => ([] : List String)) ["b", "a"] ["b", "a"] =
          (dfsLoop (fun _ => ([] : List String)) ["b"] ["a"] []).1 ::
            clustersLoop (fun _ => ([] : List String)) ["a"]
              (dfsLoop (fun _ => ([] : List String)) ["b"] ["a"] []).2 := rfl
      rw [hs1, e1c]
      have hs2 : clustersLoop (fun _ => ([] : List String)) ["a"] ["a"] =
          (dfsLoop (fun _ => ([] : List String)) ["a"] [] []).1 ::
            clustersLoop (fun _ => ([] : List String)) []
              (dfsLoop (fun _ => ([] : List String)) ["a"] [] []).2 := rfl
      rw [hs2, e1d]
      rfl
    have h1 : compute_clusters ["a", "b"] (fun _ => ([] : List String)) =
        [⟨["a"], ["a"]⟩, ⟨["b"], ["b"]⟩] := by
      unfold compute_clusters
      simp only [c1]
      with_unfolding_all decide
    have h2 : compute_clusters ["b", "a"] (fun _ => ([] : List String)) =
        [⟨["b"], ["b"]⟩, ⟨["a"], ["a"]⟩] := by
      unfold compute_clusters
      simp only [c2]
      with_unfolding_all decide
    intro h
    rw [h1, h2] at h
    exact absurd h (by decide)

/-! ## C6: the clusters partition the key set -/

theorem dfsLoop_nil (nbr : String → List String) (unvisited acc : List String) :
    dfsLoop nbr [] unvisited acc = (acc, unvisited) := by
  rw [dfsLoop.eq_def]

theorem dfsLoop_cons (nbr : String → List String) (n : String)
    (rest unvisited acc : List String) :
    dfsLoop nbr (n :: rest) unvisited acc =
      dfsLoop nbr ((((nbr n).dedup).filter (fun m => unvisited.contains m)).reverse ++ rest)
        (unvisited.filter
          (fun m => !((((nbr n).dedup).filter (fun m => unvisited.contains m)).contains m)))
        (acc ++ [n]) := by
  rw [dfsLoop.eq_def]

/-- The unvisited set only shrinks. -/
theorem dfsLoop_sublist (nbr : String → List String) :
    ∀ (stack unvisited acc : List String),
      (dfsLoop nbr stack unvisited acc).2.Sublist unvisited := by
  intro stack unvisited acc
  induction stack, unvisited, acc using dfsLoop.induct nbr with
  | case1 unvisited acc =>
      rw [dfsLoop_nil]
  | case2 unvisited acc n rest nN ih =>
      rw [dfsLoop_cons]
      exact ih.trans (List.filter_sublist _)

/-- Conservation: the nodes collected by one DFS plus the remaining
unvisited nodes are exactly the starting stock. -/
theorem dfsLoop_perm (nbr : String → List String) :
    ∀ (stack unvisited acc : List String), unvisited.Nodup →
      ((dfsLoop nbr stack unvisited acc).1 ++
        (dfsLoop nbr stack unvisited acc).2).Perm (acc ++ stack ++ unvisited) := by
  intro stack unvisited acc
  induction stack, unvisited, acc using dfsLoop.induct nbr with
  | case1 unvisited acc =>
      intro _
      rw [dfsLoop_nil]
      simp
  | case2 unvisited acc n rest nN ih =>
      intro hnd
      rw [dfsLoop_cons]
      have hndN : nN.Nodup := (List.nodup_dedup _).filter _
      have hnd2 : (unvisited.filter (fun m => !(nN.contains m))).Nodup :=
        hnd.filter _
      have hperm := ih hnd2
      refine hperm.trans ?_
      have h1 : (unvisited.filter (fun m => nN.contains m)).Perm nN := by
        refine (List.perm_ext_iff_of_nodup (hnd.filter _) hndN).mpr ?_
        intro m
        simp only [List.mem_filter]
        constructor
        · intro h
          exact List.mem_of_elem_eq_true h.2
        · intro hm
          have hm2 := List.mem_filter.mp hm
          refine ⟨List.mem_of_elem_eq_true hm2.2, List.elem_eq_true_of_mem hm⟩
      have hsplit : (nN ++ unvisited.filter (fun m => !(nN.contains m))).Perm
          unvisited := by
        refine (List.Perm.append h1.symm (List.Perm.refl _)).trans ?_
        exact List.filter_append_perm _ unvisited
      rw [List.perm_iff_count]
      intro x
      have hc := hsplit.count_eq x
      simp only [List.count_append] at hc ⊢
      rw [List.count_reverse]
      simp only [List.count_cons, List.count_nil]
      by_cases hx : x = n
      · rw [if_pos (beq_iff_eq.mpr hx.symm)]
        omega
      · rw [if_neg (by simp [Ne.symm hx])]
        omega

/-- The components produced by the outer loop are, together, a permutation
of the unvisited stock (provided every unvisited key is enumerated). -/
theorem clustersLoop_flatten_perm (nbr : String → List String) :
    ∀ (ord unvisited : List String), unvisited.Nodup →
      (∀ u ∈ unvisited, u ∈ ord) →
      ((clustersLoop nbr ord unvisited).flatten).Perm unvisited := by
  intro ord
  induction ord with
  | nil =>
      intro unvisited _ hsub
      have he : unvisited = [] := List.eq_nil_iff_forall_not_mem.mpr
        (fun u hu => List.not_mem_nil u (hsub u hu))
      rw [he]
      exact List.Perm.refl _
  | cons k ord ih =>
      intro unvisited hnd hsub
      show ((if unvisited.contains k then
          (dfsLoop nbr [k] (unvisited.erase k) []).1 ::
            clustersLoop nbr ord (dfsLoop nbr [k] (unvisited.erase k) []).2
        else clustersLoop nbr ord unvisited).flatten).Perm unvisited
      by_cases hk : unvisited.contains k = true
      · rw [if_pos hk]
        have hkmem : k ∈ unvisited := List.mem_of_elem_eq_true hk
        have hnde : (unvisited.erase k).Nodup := hnd.erase k
        have hperm := dfsLoop_perm nbr [k] (unvisited.erase k) [] hnde
        simp only [List.nil_append] at hperm
        have hsb := dfsLoop_sublist nbr [k] (unvisited.erase k) []
        have hsub2 : ∀ u ∈ (dfsLoop nbr [k] (unvisited.erase k) []).2, u ∈ ord := by
          intro u hu
          have hue : u ∈ unvisited.erase k := hsb.subset hu
          have hne := (List.Nodup.mem_erase_iff hnd).mp hue
          rcases List.mem_cons.mp (hsub u hne.2) with h | h
          · exact absurd h hne.1
          · exact h
        have hnd3 : (dfsLoop nbr [k] (unvisited.erase k) []).2.Nodup := hsb.nodup hnde
        have hihp := ih _ hnd3 hsub2
        rw [List.flatten_cons]
        refine (List.Perm.append_left _ hihp).trans ?_
        refine hperm.trans ?_
        exact (List.perm_cons_erase hkmem).symm
      · rw [if_neg hk]
        apply ih unvisited hnd
        intro u hu
        rcases List.mem_cons.mp (hsub u hu) with h | h
        · exact absurd (List.elem_eq_true_of_mem (h ▸ hu)) hk
        · exact h

/-- A node that is nobody's neighbour is never visited by a DFS it is not
on the stack of. -/
theorem dfsLoop_avoid (nbr : String → List String) (z : String)
    (hz : ∀ n, z ∉ nbr n) :
    ∀ (stack unvisited acc : List String), z ∈ unvisited → z ∉ stack →
      z ∈ (dfsLoop nbr stack unvisited acc).2 := by
  intro stack unvisited acc
  induction stack, unvisited, acc using dfsLoop.induct nbr with
  | case1 unvisited acc =>
      intro hu _
      rw [dfsLoop_nil]
      exact hu
  | case2 unvisited acc n rest nN ih =>
      intro hu hs
      rw [dfsLoop_cons]
      have hzn : z ∉ nN := by
        intro hmem
        exact hz n (List.mem_dedup.mp (List.mem_filter.mp hmem).1)
      have hcf : (nN.contains z) = false := by
        cases hcb : nN.contains z with
        | false => rfl
        | true => exact absurd (List.mem_of_elem_eq_true hcb) hzn
      apply ih
      · exact List.mem_filter.mpr ⟨hu, by rw [hcf]; rfl⟩
      · intro hmem
        rcases List.mem_append.mp hmem with h | h
        · exact hzn (List.mem_reverse.mp h)
        · exact hs (List.mem_cons_of_mem n h)

/-- An isolated node always comes out as the singleton component. -/
theorem clustersLoop_singleton (nbr : String → List String) (z : String)
    (hz0 : nbr z = []) (hz : ∀ n, z ∉ nbr n) :
    ∀ (ord unvisited : List String), unvisited.Nodup → z ∈ unvisited →
      (∀ u ∈ unvisited, u ∈ ord) →
      [z] ∈ clustersLoop nbr ord unvisited := by
  intro ord
  induction ord with
  | nil =>
      intro unvisited _ hzu hsub
      exact absurd (hsub z hzu) (List.not_mem_nil z)
  | cons k ord ih =>
      intro unvisited hnd hzu hsub
      show [z] ∈ (if unvisited.contains k then
          (dfsLoop nbr [k] (unvisited.erase k) []).1 ::
            clustersLoop nbr ord (dfsLoop nbr [k] (unvisited.erase k) []).2
        else clustersLoop nbr ord unvisited)
      by_cases hk : unvisited.contains k = true
      · rw [if_pos hk]
        by_cases hkz : k = z
        · subst hkz
          have hpr : (dfsLoop nbr [k] (unvisited.erase k) []).1 = [k] := by
            rw [dfsLoop_cons, hz0]
            simp only [List.dedup_nil, List.filter_nil, List.reverse_nil,
              List.nil_append, List.contains_nil, Bool.not_false, List.filter_true]
            rw [dfsLoop_nil]
          rw [hpr]
          exact List.mem_cons_self _ _
        · have hzne : z ≠ k := fun h => hkz h.symm
          apply List.mem_cons_of_mem
          have hsb := dfsLoop_sublist nbr [k] (unvisited.erase k) []
          apply ih
          · exact hsb.nodup (hnd.erase k)
          · apply dfsLoop_avoid nbr z hz [k] (unvisited.erase k) []
            · exact (List.mem_erase_of_ne hzne).mpr hzu
            · intro h
              exact hzne (List.mem_singleton.mp h)
          · intro u hu
            have hue : u ∈ unvisited.erase k := hsb.subset hu
            have hne := (List.Nodup.mem_erase_iff hnd).mp hue
            rcases List.mem_cons.mp (hsub u hne.2) with h | h
            · exact absurd h hne.1
            · exact h
      · rw [if_neg hk]
        apply ih unvisited hnd hzu
        intro u hu
        rcases List.mem_cons.mp (hsub u hu) with h | h
        · exact absurd (List.elem_eq_true_of_mem (h ▸ hu)) hk
        · exact h

theorem flatten_map_sortBy (L : List (List String)) :
    ((L.map (sortBy strAsc)).flatten).Perm L.flatten := by
  induction L with
  | nil => exact List.Perm.refl _
  | cons l L ih =>
      rw [List.map_cons, List.flatten_cons, List.flatten_cons]
      exact List.Perm.append (sortBy_perm _ _) ih

theorem isNeighbor_symm (rels : List Relation) (n m : String) :
    isNeighbor rels n m = isNeighbor rels m n := by
  have hb : ∀ (p q u v : Bool), ((p && q) || (u && v)) = ((v && u) || (q && p)) := by
    decide
  unfold isNeighbor
  induction rels with
  | nil => rfl
  | cons r rs ih =>
      rw [List.any_cons, List.any_cons, ih]
      congr 1
      exact hb _ _ _ _

theorem forced_single (l : List String) (x : String) (hnd : l.Nodup)
    (hm : ∀ m, m ∈ l ↔ m = x) : l = [x] := by
  cases l with
  | nil => exact absurd ((hm x).mpr rfl) (List.not_mem_nil x)
  | cons a t =>
      have ha : a = x := (hm a).mp (List.mem_cons_self a t)
      subst ha
      cases t with
      | nil => rfl
      | cons b t2 =>
          have hb : b = a := (hm b).mp (List.mem_cons_of_mem a (List.mem_cons_self b t2))
          subst hb
          exact absurd hnd (by simp)

/-- Concepts a, b, c for the clustering scenario. -/
def cABC : List Concept :=
  [⟨1, "a", "d", 1/2, "t"⟩, ⟨2, "b", "d", 1/2, "t"⟩, ⟨3, "c", "d", 1/2, "t"⟩]

/-- The single relation a --uses--> b. -/
def relAB : List Relation := [⟨1, "a", "uses", "b", "t"⟩]

/-- C6: over every valid key and neighbour enumeration, the clusters
partition the adjacency key set (which contains every concept name): the
flattened cluster node lists are a permutation of the keys, so every key
lands in exactly one cluster; an unrelated concept forms the singleton
cluster with itself as top node; and the a/b/c scenario yields exactly
cluster [a,b] (top [a,b]) followed by cluster [c]. -/
theorem C6_cluster_partition (concepts : List Concept) (rels : List Relation)
    (ord : List String) (nbr : String → List String)
    (hord : validOrd concepts rels ord) (hnbr : validNbr rels nbr) :
    (((compute_clusters ord nbr).map ClusterInfo.nodes).flatten).Perm ord ∧
    (∀ n, n ∈ keySet concepts rels →
      ((compute_clusters ord nbr).map ClusterInfo.nodes).flatten.count n = 1) ∧
    (∀ z, z ∈ concepts.map Concept.name →
      (∀ m, isNeighbor rels z m = false) →
      (⟨[z], [z]⟩ : ClusterInfo) ∈ compute_clusters ord nbr) ∧
    (concepts = cABC → rels = relAB →
      compute_clusters ord nbr =
        [⟨["a", "b"], ["a", "b"]⟩, ⟨["c"], ["c"]⟩]) := by
  have hflat : (((compute_clusters ord nbr).map ClusterInfo.nodes).flatten).Perm ord := by
    have h1 : (compute_clusters ord nbr).Perm
        ((clustersLoop nbr ord ord).map (fun ns =>
          ({ nodes := sortBy strAsc ns,
             top := top_nodes (sortBy strAsc ns)
               (fun n => ((nbr n).dedup).length) } : ClusterInfo))) :=
      sortBy_perm _ _
    have h2 := List.Perm.map ClusterInfo.nodes h1
    have h3 : ((clustersLoop nbr ord ord).map (fun ns =>
        ({ nodes := sortBy strAsc ns,
           top := top_nodes (sortBy strAsc ns)
             (fun n => ((nbr n).dedup).length) } : ClusterInfo))).map ClusterInfo.nodes =
        (clustersLoop nbr ord ord).map (sortBy strAsc) := by
      rw [List.map_map]
      rfl
    rw [h3] at h2
    refine (h2.flatten).trans ?_
    refine (flatten_map_sortBy _).trans ?_
    exact clustersLoop_flatten_perm nbr ord ord hord.1 (fun u hu => hu)
  refine ⟨hflat, ?_, ?_, ?_⟩
  · intro n hn
    rw [hflat.count_eq n]
    exact List.count_eq_one_of_mem hord.1 ((hord.2 n).mpr hn)
  · intro z hz hziso
    have hz0 : nbr z = [] := by
      refine List.eq_nil_iff_forall_not_mem.mpr (fun m hm => ?_)
      have := ((hnbr z).2 m).mp hm
      rw [hziso m] at this
      exact Bool.noConfusion this
    have hzno : ∀ n, z ∉ nbr n := by
      intro n hm
      have := ((hnbr n).2 z).mp hm
      rw [isNeighbor_symm, hziso n] at this
      exact Bool.noConfusion this
    have hzord : z ∈ ord := by
      refine (hord.2 z).mpr ?_
      exact List.mem_dedup.mpr (List.mem_append_left _ hz)
    have hmemraw : [z] ∈ clustersLoop nbr ord ord :=
      clustersLoop_singleton nbr z hz0 hzno ord ord hord.1 hzord (fun u hu => hu)
    exact mem_sortBy.mpr (List.mem_map.mpr ⟨[z], hmemraw, rfl⟩)
  · intro hc hr
    subst hc
    subst hr
    have hnbra : nbr "a" = ["b"] := by
      refine forced_single _ _ (hnbr "a").1 (fun m => ?_)
      rw [(hnbr "a").2 m]
      have h1 : isNeighbor relAB "a" m =
          ((("b" == m) || (("b" == "a") && ("a" == m))) || false) := by
        with_unfolding_all rfl
      have h2 : (("b" : String) == "a") = false := by with_unfolding_all decide
      rw [h1, h2, Bool.false_and, Bool.or_false, Bool.or_false, beq_iff_eq]
      exact eq_comm
    have hnbrb : nbr "b" = ["a"] := by
      refine forced_single _ _ (hnbr "b").1 (fun m => ?_)
      rw [(hnbr "b").2 m]
      have hiso : isNeighbor relAB "b" m = (("a" == m) || false) := by
        with_unfolding_all rfl
      rw [hiso, Bool.or_false, beq_iff_eq]
      exact eq_comm
    have hnbrc : nbr "c" = [] := by
      refine List.eq_nil_iff_forall_not_mem.mpr (fun m hm => ?_)
      have := ((hnbr "c").2 m).mp hm
      have hiso : isNeighbor relAB "c" m = false := by
        with_unfolding_all rfl
      rw [hiso] at this
      exact Bool.noConfusion this
    have hsort1 : sortBy strAsc ["a", "b"] = ["a", "b"] := by
      with_unfolding_all decide
    have hsort2 : sortBy strAsc ["b", "a"] = ["a", "b"] := by
      with_unfolding_all decide
    have hsort3 : sortBy strAsc ["c"] = ["c"] := by
      with_unfolding_all decide
    have htop1 : top_nodes ["a", "b"] (fun n => ((nbr n).dedup).length) = ["a", "b"] := by
      unfold top_nodes
      simp only [List.map_cons, List.map_nil, hnbra, hnbrb]
      with_unfolding_all decide
    have htop2 : top_nodes ["c"] (fun n => ((nbr n).dedup).length) = ["c"] := by
      unfold top_nodes
      simp only [List.map_cons, List.map_nil, hnbrc]
      with_unfolding_all decide
    have dA1 : dfsLoop nbr ["a"] ["b", "c"] [] = dfsLoop nbr ["b"] ["c"] ["a"] := by
      rw [dfsLoop_cons, hnbra]
      with_unfolding_all rfl
    have dA2 : dfsLoop nbr ["b"] ["c"] ["a"] = dfsLoop nbr [] ["c"] ["a", "b"] := by
      rw [dfsLoop_cons, hnbrb]
      with_unfolding_all rfl
    have dA : dfsLoop nbr ["a"] ["b", "c"] [] = (["a", "b"], ["c"]) := by
      rw [dA1, dA2, dfsLoop_nil]
    have dA3 : dfsLoop nbr ["a"] ["c", "b"] [] = dfsLoop nbr ["b"] ["c"] ["a"] := by
      rw [dfsLoop_cons, hnbra]
      with_unfolding_all rfl
    have dAcb : dfsLoop nbr ["a"] ["c", "b"] [] = (["a", "b"], ["c"]) := by
      rw [dA3, dA2, dfsLoop_nil]
    have dB1 : dfsLoop nbr ["b"] ["a", "c"] [] = dfsLoop nbr ["a"] ["c"] ["b"] := by
      rw [dfsLoop_cons, hnbrb]
      with_unfolding_all rfl
    have dB2 : dfsLoop nbr ["a"] ["c"] ["b"] = dfsLoop nbr [] ["c"] ["b", "a"] := by
      rw [dfsLoop_cons, hnbra]
      with_unfolding_all rfl
    have dB : dfsLoop nbr ["b"] ["a", "c"] [] = (["b", "a"], ["c"]) := by
      rw [dB1, dB2, dfsLoop_nil]
    have dB3 : dfsLoop nbr ["b"] ["c", "a"] [] = dfsLoop nbr ["a"] ["c"] ["b"] := by
      rw [dfsLoop_cons, hnbrb]
      with_unfolding_all rfl
    have dBca : dfsLoop nbr ["b"] ["c", "a"] [] = (["b", "a"], ["c"]) := by
      rw [dB3, dB2, dfsLoop_nil]
    have dC1 : dfsLoop nbr ["c"] [] [] = dfsLoop nbr [] [] ["c"] := by
      rw [dfsLoop_cons, hnbrc]
      with_unfolding_all rfl
    have dC : dfsLoop nbr ["c"] [] [] = (["c"], []) := by
      rw [dC1, dfsLoop_nil]
    have dCab : dfsLoop nbr ["c"] ["a", "b"] [] = dfsLoop nbr [] ["a", "b"] ["c"] := by
      rw [dfsLoop_cons, hnbrc]
      with_unfolding_all rfl
    have dCabv : dfsLoop nbr ["c"] ["a", "b"] [] = (["c"], ["a", "b"]) := by
      rw [dCab, dfsLoop_nil]
    have dCba : dfsLoop nbr ["c"] ["b", "a"] [] = dfsLoop nbr [] ["b", "a"] ["c"] := by
      rw [dfsLoop_cons, hnbrc]
      with_unfolding_all rfl
    have dCbav : dfsLoop nbr ["c"] ["b", "a"] [] = (["c"], ["b", "a"]) := by
      rw [dCba, dfsLoop_nil]
    have dAb1 : dfsLoop nbr ["a"] ["b"] [] = dfsLoop nbr ["b"] [] ["a"] := by
      rw [dfsLoop_cons, hnbra]
      with_unfolding_all rfl
    have dAb2 : dfsLoop nbr ["b"] [] ["a"] = dfsLoop nbr [] [] ["a", "b"] := by
      rw [dfsLoop_cons, hnbrb]
      with_unfolding_all rfl
    have dAb : dfsLoop nbr ["a"] ["b"] [] = (["a", "b"], []) := by
      rw [dAb1, dAb2, dfsLoop_nil]
    have dBa1 : dfsLoop nbr ["b"] ["a"] [] = dfsLoop nbr ["a"] [] ["b"] := by
      rw [dfsLoop_cons, hnbrb]
      with_unfolding_all rfl
    have dBa2 : dfsLoop nbr ["a"] [] ["b"] = dfsLoop nbr [] [] ["b", "a"] := by
      rw [dfsLoop_cons, hnbra]
      with_unfolding_all rfl
    have dBa : dfsLoop nbr ["b"] ["a"] [] = (["b", "a"], []) := by
      rw [dBa1, dBa2, dfsLoop_nil]
    have hksA : keySet cABC relAB = ["c", "a", "b"] := by
      with_unfolding_all decide
    have hperm : ord.Perm ["a", "b", "c"] := by
      refine (List.perm_ext_iff_of_nodup hord.1 (by decide)).mpr ?_
      intro n
      rw [hord.2 n, hksA]
      simp only [List.mem_cons, List.not_mem_nil, or_false]
      tauto
    have hmemp := List.mem_permutations.mpr hperm
    rw [show (["a", "b", "c"] : List String).permutations =
        [["a", "b", "c"], ["b", "a", "c"], ["c", "b", "a"], ["b", "c", "a"],
         ["c", "a", "b"], ["a", "c", "b"]] from by with_unfolding_all decide] at hmemp
    simp only [List.mem_cons, List.not_mem_nil, or_false] at hmemp
    rcases hmemp with h | h | h | h | h | h
    · subst h
      have hraw : clustersLoop nbr ["a", "b", "c"] ["a", "b", "c"] =
          [["a", "b"], ["c"]] := by
        have s1 : clustersLoop nbr ["a", "b", "c"] ["a", "b", "c"] =
            (dfsLoop nbr ["a"] ["b", "c"] []).1 ::
              clustersLoop nbr ["b", "c"] (dfsLoop nbr ["a"] ["b", "c"] []).2 := by
          with_unfolding_all rfl
        rw [s1, dA]
        have s2 : clustersLoop nbr ["b", "c"] ["c"] =
            (dfsLoop nbr ["c"] [] []).1 ::
              clustersLoop nbr [] (dfsLoop nbr ["c"] [] []).2 := by
          with_unfolding_all rfl
        rw [s2, dC]
        rfl
      unfold compute_clusters
      simp only [hraw, List.map_cons, List.map_nil, hsort1, hsort3, htop1, htop2]
      with_unfolding_all decide
    · subst h
      have hraw : clustersLoop nbr ["b", "a", "c"] ["b", "a", "c"] =
          [["b", "a"], ["c"]] := by
        have s1 : clustersLoop nbr ["b", "a", "c"] ["b", "a", "c"] =
            (dfsLoop nbr ["b"] ["a", "c"] []).1 ::
              clustersLoop nbr ["a", "c"] (dfsLoop nbr ["b"] ["a", "c"] []).2 := by
          with_unfolding_all rfl
        rw [s1, dB]
        have s2 : clustersLoop nbr ["a", "c"] ["c"] =
            (dfsLoop nbr ["c"] [] []).1 ::
              clustersLoop nbr [] (dfsLoop nbr ["c"] [] []).2 := by
          with_unfolding_all rfl
        rw [s2, dC]
        rfl
      unfold compute_clusters
      simp only [hraw, List.map_cons, List.map_nil, hsort2, hsort3, htop1, htop2]
      with_unfolding_all decide
    · subst h
      have hraw : clustersLoop nbr ["c", "b", "a"] ["c", "b", "a"] =
          [["c"], ["b", "a"]] := by
        have s1 : clustersLoop nbr ["c", "b", "a"] ["c", "b", "a"] =
            (dfsLoop nbr ["c"] ["b", "a"] []).1 ::
              clustersLoop nbr ["b", "a"] (dfsLoop nbr ["c"] ["b", "a"] []).2 := by
          with_unfolding_all rfl
        rw [s1, dCbav]
        have s2 : clustersLoop nbr ["b", "a"] ["b", "a"] =
            (dfsLoop nbr ["b"] ["a"] []).1 ::
              clustersLoop nbr ["a"] (dfsLoop nbr ["b"] ["a"] []).2 := by
          with_unfolding_all rfl
        rw [s2, dBa]
        rfl
      unfold compute_clusters
      simp only [hraw, List.map_cons, List.map_nil, hsort2, hsort3, htop1, htop2]
      with_unfolding_all decide
    · subst h
      have hraw : clustersLoop nbr ["b", "c", "a"] ["b", "c", "a"] =
          [["b", "a"], ["c"]] := by
        have s1 : clustersLoop nbr ["b", "c", "a"] ["b", "c", "a"] =
            (dfsLoop nbr ["b"] ["c", "a"] []).1 ::
              clustersLoop nbr ["c", "a"] (dfsLoop nbr ["b"] ["c", "a"] []).2 := by
          with_unfolding_all rfl
        rw [s1, dBca]
        have s2 : clustersLoop nbr ["c", "a"] ["c"] =
            (dfsLoop nbr ["c"] [] []).1 ::
              clustersLoop nbr ["a"] (dfsLoop nbr ["c"] [] []).2 := by
          with_unfolding_all rfl
        rw [s2, dC]
        rfl
      unfold compute_clusters
      simp only [hraw, List.map_cons, List.map_nil, hsort2, hsort3, htop1, htop2]
      with_unfolding_all decide
    · subst h
      have hraw : clustersLoop nbr ["c", "a", "b"] ["c", "a", "b"] =
          [["c"], ["a", "b"]] := by
        have s1 : clustersLoop nbr ["c", "a", "b"] ["c", "a", "b"] =
            (dfsLoop nbr ["c"] ["a", "b"] []).1 ::
              clustersLoop nbr ["a", "b"] (dfsLoop nbr ["c"] ["a", "b"] []).2 := by
          with_unfolding_all rfl
        rw [s1, dCabv]
        have s2 : clustersLoop nbr ["a", "b"] ["a", "b"] =
            (dfsLoop nbr ["a"] ["b"] []).1 ::
              clustersLoop nbr ["b"] (dfsLoop nbr ["a"] ["b"] []).2 := by
          with_unfolding_all rfl
        rw [s2, dAb]
        rfl
      unfold compute_clusters
      simp only [hraw, List.map_cons, List.map_nil, hsort1, hsort3, htop1, htop2]
      with_unfolding_all decide
    · subst h
      have hraw : clustersLoop nbr ["a", "c", "b"] ["a", "c", "b"] =
          [["a", "b"], ["c"]] := by
        have s1 : clustersLoop nbr ["a", "c", "b"] ["a", "c", "b"] =
            (dfsLoop nbr ["a"] ["c", "b"] []).1 ::
              clustersLoop nbr ["c", "b"] (dfsLoop nbr ["a"] ["c", "b"] []).2 := by
          with_unfolding_all rfl
        rw [s1, dAcb]
        have s2 : clustersLoop nbr ["c", "b"] ["c"] =
            (dfsLoop nbr ["c"] [] []).1 ::
              clustersLoop nbr ["b"] (dfsLoop nbr ["c"] [] []).2 := by
          with_unfolding_all rfl
        rw [s2, dC]
        rfl
      unfold compute_clusters
      simp only [hraw, List.map_cons, List.map_nil, hsort1, hsort3, htop1, htop2]
      with_unfolding_all decide

/-- A concrete adjacency enumeration for the a/b/c scenario. -/
def nbrW : String → List String :=
  fun n => if n = "a" then ["b"] else if n = "b" then ["a"] else []

theorem validOrdW : validOrd cABC relAB ["a", "b", "c"] := by
  constructor
  · decide
  · intro n
    rw [show keySet cABC relAB = ["c", "a", "b"] from by with_unfolding_all decide]
    simp only [List.mem_cons, List.not_mem_nil, or_false]
    tauto

theorem validNbrW : validNbr relAB nbrW := by
  intro n
  constructor
  · unfold nbrW
    split_ifs <;> simp
  · intro m
    unfold nbrW
    split_ifs with h1 h2
    · subst h1
      rw [show isNeighbor relAB "a" m =
            ((("b" == m) || (("b" == "a") && ("a" == m))) || false) from by
          with_unfolding_all rfl,
        show (("b" : String) == "a") = false from by with_unfolding_all decide,
        Bool.false_and, Bool.or_false, Bool.or_false, beq_iff_eq]
      simp [eq_comm]
    · subst h2
      rw [show isNeighbor relAB "b" m = (("a" == m) || false) from by
          with_unfolding_all rfl,
        Bool.or_false, beq_iff_eq]
      simp [eq_comm]
    · constructor
      · intro hm
        exact absurd hm (List.not_mem_nil m)
      · intro hiso
        unfold isNeighbor relAB at hiso
        simp only [List.any_cons, List.any_nil, Bool.or_false, Bool.or_eq_true,
          Bool.and_eq_true, beq_iff_eq] at hiso
        rcases hiso with h | h
        · exact absurd h.1.symm h1
        · exact absurd h.1.symm h2

theorem C6_cluster_partition_witness :
    (validOrd cABC relAB ["a", "b", "c"] ∧ validNbr relAB nbrW) ∧
    ((((compute_clusters ["a", "b", "c"] nbrW).map ClusterInfo.nodes).flatten).Perm
        ["a", "b", "c"] ∧
     (∀ n, n ∈ keySet cABC relAB →
       ((compute_clusters ["a", "b", "c"] nbrW).map ClusterInfo.nodes).flatten.count n = 1) ∧
     (∀ z, z ∈ cABC.map Concept.name →
       (∀ m, isNeighbor relAB z m = false) →
       (⟨[z], [z]⟩ : ClusterInfo) ∈ compute_clusters ["a", "b", "c"] nbrW) ∧
     (cABC = cABC → relAB = relAB →
       compute_clusters ["a", "b", "c"] nbrW =
         [⟨["a", "b"], ["a", "b"]⟩, ⟨["c"], ["c"]⟩])) :=
  ⟨⟨validOrdW, validNbrW⟩,
   C6_cluster_partition cABC relAB ["a", "b", "c"] nbrW validOrdW validNbrW⟩

/-! ## C7: top nodes are ranked by degree with lexicographic tie-break -/

/-- The ranking the specification describes: degree descending, ties
broken by name ascending. -/
def lexLe (a b : Nat × String) : Bool :=
  decide (b.1 < a.1 ∨ (b.1 = a.1 ∧ a.2 ≤ b.2))

/-- On a list whose names are strictly ascending, the stable degree-only
sort of the code coincides with the full degree-then-name ranking: an
element is inserted before exactly the strictly-higher-degree prefix in
both, because every element after it in the input has a larger name. -/
theorem sortBy_deg_eq_lex :
    ∀ (l : List (Nat × String)),
      l.Pairwise (fun p q : Nat × String => p.2 < q.2) →
      sortBy (fun a b : Nat × String => decide (b.1 ≤ a.1)) l = sortBy lexLe l := by
  intro l
  induction l with
  | nil => intro _; rfl
  | cons x xs ih =>
      intro hps
      rw [List.pairwise_cons] at hps
      show insertS (fun a b : Nat × String => decide (b.1 ≤ a.1)) x
          (sortBy (fun a b : Nat × String => decide (b.1 ≤ a.1)) xs) =
        insertS lexLe x (sortBy lexLe xs)
      rw [ih hps.2]
      apply insertS_eq_of_strict_agree
      intro y hy
      have hyx : x.2 < y.2 := hps.1 y (mem_sortBy.mp hy)
      rcases lt_trichotomy x.1 y.1 with h | h | h
      · have e1 : (decide (x.1 ≤ y.1)) = true := decide_eq_true h.le
        have e2 : (decide (y.1 ≤ x.1)) = false := decide_eq_false (not_le.mpr h)
        have e3 : lexLe y x = true := decide_eq_true (Or.inl h)
        have e4 : lexLe x y = false := by
          refine decide_eq_false ?_
          rintro (h2 | ⟨h2, _⟩)
          · exact absurd h2 (lt_asymm h)
          · exact absurd h2 (ne_of_gt h)
        rw [e1, e2, e3, e4]
      · have e1 : (decide (x.1 ≤ y.1)) = true := decide_eq_true h.le
        have e2 : (decide (y.1 ≤ x.1)) = true := decide_eq_true h.ge
        have e3 : lexLe y x = false := by
          refine decide_eq_false ?_
          rintro (h2 | ⟨_, h3⟩)
          · exact absurd h2 (h ▸ lt_irrefl x.1)
          · exact absurd h3 (not_le.mpr hyx)
        rw [e1, e2, e3]
        rfl
      · have e1 : (decide (x.1 ≤ y.1)) = false := decide_eq_false (not_le.mpr h)
        have e3 : lexLe y x = false := by
          refine decide_eq_false ?_
          rintro (h2 | ⟨h2, _⟩)
          · exact absurd h2 (lt_asymm h)
          · exact absurd h2 (ne_of_lt h).symm
        rw [e1, e3]
        rfl

theorem nodup_of_mem_flatten {L : List (List String)} {l : List String}
    (hm : l ∈ L) (hnd : L.flatten.Nodup) : l.Nodup := by
  induction L with
  | nil => exact absurd hm (List.not_mem_nil l)
  | cons a L ih =>
      rw [List.flatten_cons] at hnd
      rcases List.mem_cons.mp hm with h | h
      · subst h
        exact (List.nodup_append.mp hnd).1
      · exact ih h (List.nodup_append.mp hnd).2.1

theorem strAsc_total (a b : String) : (strAsc a b || strAsc b a) = true := by
  unfold strAsc
  rcases le_total a b with h | h <;> simp [h]

theorem strAsc_trans (a b c : String) (h1 : strAsc a b = true)
    (h2 : strAsc b c = true) : strAsc a c = true := by
  unfold strAsc at h1 h2 ⊢
  exact decide_eq_true (le_trans (of_decide_eq_true h1) (of_decide_eq_true h2))

/-- C7: in every cluster of `compute_clusters` (over valid enumerations),
the highlighted nodes are the first 3 of the cluster's nodes ranked by
degree (number of distinct neighbours, i.e. the length of the duplicate-free
neighbour enumeration) descending with ties broken lexicographically by
name: the code sorts by degree alone, but its input is name-sorted and the
sort is stable. -/
theorem C7_top_tiebreak (concepts : List Concept) (rels : List Relation)
    (ord : List String) (nbr : String → List String)
    (hord : validOrd concepts rels ord) (hnbr : validNbr rels nbr) :
    ∀ c ∈ compute_clusters ord nbr,
      c.top = ((sortBy lexLe (c.nodes.map (fun n => ((nbr n).length, n)))).take 3).map
        (fun p => p.2) := by
  intro c hc
  have hc2 : c ∈ (clustersLoop nbr ord ord).map (fun ns =>
      ({ nodes := sortBy strAsc ns,
         top := top_nodes (sortBy strAsc ns)
           (fun n => ((nbr n).dedup).length) } : ClusterInfo)) := mem_sortBy.mp hc
  obtain ⟨ns, hns, hfc⟩ := List.mem_map.mp hc2
  subst hfc
  have hflat := clustersLoop_flatten_perm nbr ord ord hord.1 (fun u hu => hu)
  have hfl_nodup : ((clustersLoop nbr ord ord).flatten).Nodup :=
    hflat.nodup_iff.mpr hord.1
  have hns_nodup : ns.Nodup := nodup_of_mem_flatten hns hfl_nodup
  have hsorted : (sortBy strAsc ns).Pairwise (fun a b => strAsc a b = true) :=
    pairwise_sortBy strAsc_total strAsc_trans ns
  have hnodes_nodup : (sortBy strAsc ns).Nodup := nodup_sortBy hns_nodup
  have hstrict : (sortBy strAsc ns).Pairwise (fun a b => a < b) :=
    (hsorted.and hnodes_nodup).imp
      (fun h => lt_of_le_of_ne (of_decide_eq_true h.1) h.2)
  have hdd : ∀ n, ((nbr n).dedup) = nbr n := fun n => List.Nodup.dedup (hnbr n).1
  show top_nodes (sortBy strAsc ns) (fun n => ((nbr n).dedup).length) = _
  unfold top_nodes
  simp only [hdd]
  have hpairs : ((sortBy strAsc ns).map
      (fun n => (((nbr n).length), n))).Pairwise (fun p q : Nat × String => p.2 < q.2) :=
    (List.pairwise_map).mpr hstrict
  rw [sortBy_deg_eq_lex _ hpairs]

theorem C7_top_tiebreak_witness :
    (validOrd cABC relAB ["a", "b", "c"] ∧ validNbr relAB nbrW) ∧
    (∀ c ∈ compute_clusters ["a", "b", "c"] nbrW,
      c.top = ((sortBy lexLe (c.nodes.map (fun n => ((nbrW n).length, n)))).take 3).map
        (fun p => p.2)) :=
  ⟨⟨validOrdW, validNbrW⟩,
   C7_top_tiebreak cABC relAB ["a", "b", "c"] nbrW validOrdW validNbrW⟩

end Mother
